import Mathlib

/-!
Verification of the ORF (oral reading fluency) assessment core from
backend/app/services/orf_assessment.py: text normalization (clean_text),
sequence alignment (a faithful model of CPython difflib.SequenceMatcher as
invoked by ORFAssessment.align_sequences, including its default autojunk
behaviour), error classification, metric computation (assess_reading) and
input validation (validate_inputs, and the gate in routes.process_assessment).
-/

namespace ORF

/-- Python regex class \s over the ASCII range: space, tab, newline,
carriage return, vertical tab, form feed. -/
def pyIsSpace (c : Char) : Bool :=
  c = ' ' || c = '\t' || c = '\n' || c = '\r' || c = '\x0b' || c = '\x0c'

/-- Python regex class \w over the ASCII range: letters, digits, underscore. -/
def isWordChar (c : Char) : Bool :=
  c.isAlpha || c.isDigit || c = '_'

/-- Model of re.sub with pattern [^\w\s] and empty replacement: delete every
character that is neither a word character nor whitespace. -/
def stripNonWord (l : List Char) : List Char :=
  l.filter (fun c => isWordChar c || pyIsSpace c)

/-- Fuel-driven body of collapseWs; any fuel ≥ length of the list computes
the fixed point (fuel only makes the recursion structural). -/
def collapseWsGo : Nat → List Char → List Char
  | 0, _ => []
  | _ + 1, [] => []
  | fuel + 1, c :: rest =>
    if pyIsSpace c then ' ' :: collapseWsGo fuel (rest.dropWhile pyIsSpace)
    else c :: collapseWsGo fuel rest

/-- Model of re.sub with pattern \s+ and a single-space replacement: every
maximal whitespace run becomes one space. -/
def collapseWs (l : List Char) : List Char :=
  collapseWsGo l.length l

/-- Model of Python str.strip with no argument, over ASCII whitespace. -/
def pyStrip (l : List Char) : List Char :=
  ((l.dropWhile pyIsSpace).reverse.dropWhile pyIsSpace).reverse

/-- ORFAssessment.clean_text: remove punctuation, collapse whitespace runs,
then strip and lowercase (lower is applied last, as in the source). -/
def clean_text (s : String) : String :=
  String.mk ((pyStrip (collapseWs (stripNonWord s.data))).map Char.toLower)

/-- Fuel-driven body of pySplitAux; any fuel ≥ length of the list computes
the fixed point (fuel only makes the recursion structural). -/
def pySplitGo : Nat → List Char → List (List Char)
  | 0, _ => []
  | _ + 1, [] => []
  | fuel + 1, c :: rest =>
    if pyIsSpace c then pySplitGo fuel rest
    else (c :: rest.takeWhile (fun d => !pyIsSpace d)) ::
      pySplitGo fuel (rest.dropWhile (fun d => !pyIsSpace d))

/-- Model of Python str.split with no argument: split on whitespace runs,
discarding empty chunks. -/
def pySplitAux (l : List Char) : List (List Char) :=
  pySplitGo l.length l

/-- Python str.split() lifted to String. -/
def pySplitStr (s : String) : List String :=
  (pySplitAux s.data).map String.mk

/-- Tokenization used by assess_reading: clean_text then str.split(). -/
def tokenize (s : String) : List String :=
  pySplitStr (clean_text s)

/-! Sequence alignment: model of CPython difflib.SequenceMatcher restricted
to how the repository uses it: SequenceMatcher(None, a, b).get_opcodes(),
i.e. isjunk is None (bjunk is empty) and autojunk is the default True. -/

/-- Opcode tags produced by SequenceMatcher.get_opcodes. -/
inductive Tag where
  | equal
  | replace
  | delete
  | insert
deriving DecidableEq, Repr

/-- Opcode: tag with reference range [i1,i2) and hypothesis range [j1,j2). -/
abbrev Opcode := Tag × Nat × Nat × Nat × Nat

/-- Matching block (i, j, size) as returned by find_longest_match. -/
abbrev Block := Nat × Nat × Nat

section Aligner

variable {α : Type} [DecidableEq α]

/-- Positions j with b[j] = x, ascending (the index lists that
SequenceMatcher.chain_b stores in the dictionary b2j). -/
def indicesOf (b : List α) (x : α) : List Nat :=
  (List.range b.length).filter (fun j => b.get? j = some x)

/-- SequenceMatcher autojunk (the repository constructs the matcher with the
default autojunk=True): when b has at least 200 elements, an element
occurring more than len(b)/100 + 1 times is purged from b2j. -/
def isPopular (b : List α) (x : α) : Bool :=
  decide (200 ≤ b.length) && decide (b.length / 100 + 1 < b.count x)

/-- Lookup b2j.get(x, []) after the autojunk purge (isjunk is None, so the
junk purge is empty and only the popularity purge applies). -/
def b2j (b : List α) (x : α) : List Nat :=
  if isPopular b x then [] else indicesOf b x

/-- Elements at positions i of a and j of b both exist and are equal. -/
def cellEq (a b : List α) (i j : Nat) : Bool :=
  match a.get? i, b.get? j with
  | some x, some y => decide (x = y)
  | _, _ => false

/-- Loop state of find_longest_match: the dictionary newj2len being built
for the current row (an absent key is modelled as value 0; every stored
value is positive), and the best match so far. -/
structure FlmSt where
  j2len : Nat → Nat
  besti : Nat
  bestj : Nat
  bestsize : Nat

/-- Inner loop of find_longest_match over the candidate column list
b2j[a[i]] for row i: skip j < blo (continue), stop at j >= bhi (break, the
list is ascending), record k = j2len.get(j-1, 0) + 1 into newj2len and
update the best on strict improvement. prev is the previous row's
dictionary; Python's i-k+1 is written i+1-k in Nat. -/
def flmRowAux (i blo bhi : Nat) (prev : Nat → Nat) : List Nat → FlmSt → FlmSt
  | [], st => st
  | j :: js, st =>
    if j < blo then flmRowAux i blo bhi prev js st
    else if bhi ≤ j then st
    else
      let k := (if j = 0 then 0 else prev (j - 1)) + 1
      flmRowAux i blo bhi prev js
        { j2len := Function.update st.j2len j k
          besti := if st.bestsize < k then i + 1 - k else st.besti
          bestj := if st.bestsize < k then j + 1 - k else st.bestj
          bestsize := if st.bestsize < k then k else st.bestsize }

/-- Outer loop of find_longest_match over rows i in [alo, ahi): each row
rebuilds newj2len from an empty dictionary and then rebinds j2len to it. -/
def flmRows (a b : List α) (blo bhi : Nat) : List Nat → FlmSt → FlmSt
  | [], st => st
  | i :: rows, st =>
    let js : List Nat :=
      match a.get? i with
      | some x => b2j b x
      | none => []
    flmRows a b blo bhi rows
      (flmRowAux i blo bhi st.j2len js
        { j2len := fun _ => 0
          besti := st.besti
          bestj := st.bestj
          bestsize := st.bestsize })

/-- Fuel-driven body of extendLeft: besti decreases once per iteration, so
any fuel ≥ besti computes the loop's fixed point (at fuel 0 the invariant
forces besti = 0, where the loop guard is false anyway). -/
def extendLeftGo (a b : List α) (alo blo : Nat) : Nat → Nat → Nat → Nat → Nat × Nat × Nat
  | 0, besti, bestj, bestsize => (besti, bestj, bestsize)
  | fuel + 1, besti, bestj, bestsize =>
    if alo < besti ∧ blo < bestj ∧ cellEq a b (besti - 1) (bestj - 1) = true then
      extendLeftGo a b alo blo fuel (besti - 1) (bestj - 1) (bestsize + 1)
    else (besti, bestj, bestsize)

/-- First extension loop of find_longest_match: grow the best block at the
front while the preceding elements match. The junk-conditioned variants of
this loop never fire (bjunk is empty) and are omitted. -/
def extendLeft (a b : List α) (alo blo besti bestj bestsize : Nat) : Nat × Nat × Nat :=
  extendLeftGo a b alo blo besti besti bestj bestsize

/-- Fuel-driven body of extendRight: ahi - (besti + bestsize) decreases once
per iteration, so any fuel ≥ that quantity computes the loop's fixed point
(at fuel 0 the invariant forces besti + bestsize ≥ ahi, where the loop
guard is false anyway). -/
def extendRightGo (a b : List α) (ahi bhi besti bestj : Nat) : Nat → Nat → Nat
  | 0, bestsize => bestsize
  | fuel + 1, bestsize =>
    if besti + bestsize < ahi ∧ bestj + bestsize < bhi ∧
        cellEq a b (besti + bestsize) (bestj + bestsize) = true then
      extendRightGo a b ahi bhi besti bestj fuel (bestsize + 1)
    else bestsize

/-- Second extension loop of find_longest_match: grow the best block at the
back while the following elements match. -/
def extendRight (a b : List α) (ahi bhi besti bestj bestsize : Nat) : Nat :=
  extendRightGo a b ahi bhi besti bestj (ahi - (besti + bestsize)) bestsize

/-- CPython difflib SequenceMatcher.find_longest_match with isjunk = None:
the dynamic-programming row loop, then the two non-junk extension loops. -/
def find_longest_match (a b : List α) (alo ahi blo bhi : Nat) : Nat × Nat × Nat :=
  let st := flmRows a b blo bhi (List.range' alo (ahi - alo))
    { j2len := fun _ => 0, besti := alo, bestj := blo, bestsize := 0 }
  let p := extendLeft a b alo blo st.besti st.bestj st.bestsize
  (p.1, p.2.1, extendRight a b ahi bhi p.1 p.2.1 p.2.2)

/-- SequenceMatcher.get_matching_blocks before the adjacency merge: the
recursive longest-match partition. CPython drives an explicit LIFO queue
and sorts the collected blocks; the subranges being disjoint and ordered,
in-order recursion yields that sorted list directly. CPython also skips a
recursive call when one side of a subrange is empty; such a call finds no
match and contributes no block here, so the lists agree. fuel bounds the
recursion depth; any fuel ≥ (ahi-alo)+(bhi-blo) gives the fixed point. -/
def matchingBlocksAux (a b : List α) : Nat → Nat → Nat → Nat → Nat → List Block
  | 0, _, _, _, _ => []
  | fuel + 1, alo, ahi, blo, bhi =>
    let m := find_longest_match a b alo ahi blo bhi
    if m.2.2 = 0 then []
    else matchingBlocksAux a b fuel alo m.1 blo m.2.1 ++
      (m.1, m.2.1, m.2.2) :: matchingBlocksAux a b fuel (m.1 + m.2.2) ahi (m.2.1 + m.2.2) bhi

/-- Adjacency merge at the end of get_matching_blocks: second consecutive
blocks describing adjacent equal ranges are folded into one; a group is
emitted when its size k1 is nonzero (Python truthiness of k1). -/
def mergeAdjAux : Nat → Nat → Nat → List Block → List Block
  | i1, j1, k1, [] => if k1 ≠ 0 then [(i1, j1, k1)] else []
  | i1, j1, k1, (i2, j2, k2) :: rest =>
    if i1 + k1 = i2 ∧ j1 + k1 = j2 then mergeAdjAux i1 j1 (k1 + k2) rest
    else if k1 ≠ 0 then (i1, j1, k1) :: mergeAdjAux i2 j2 k2 rest
    else mergeAdjAux i2 j2 k2 rest

/-- SequenceMatcher.get_matching_blocks: recursive partition, adjacency
merge (started from the pseudo-group (0,0,0)), then the terminating
sentinel block (len(a), len(b), 0). -/
def get_matching_blocks (a b : List α) : List Block :=
  mergeAdjAux 0 0 0 (matchingBlocksAux a b (a.length + b.length) 0 a.length 0 b.length) ++
    [(a.length, b.length, 0)]

/-- Cursor walk of SequenceMatcher.get_opcodes: before each matching block,
emit the opcode for the gap since the cursor (replace when both sides are
nonempty, else delete or insert), then an equal opcode when the block size
is nonzero. -/
def opWalk : List Block → Nat → Nat → List Opcode
  | [], _, _ => []
  | (ai, bj, sz) :: rest, i, j =>
    (if i < ai ∧ j < bj then [(Tag.replace, i, ai, j, bj)]
     else if i < ai then [(Tag.delete, i, ai, j, bj)]
     else if j < bj then [(Tag.insert, i, ai, j, bj)]
     else []) ++
    (if sz ≠ 0 then [(Tag.equal, ai, ai + sz, bj, bj + sz)] else []) ++
    opWalk rest (ai + sz) (bj + sz)

/-- SequenceMatcher.get_opcodes. -/
def get_opcodes (a b : List α) : List Opcode :=
  opWalk (get_matching_blocks a b) 0 0

end Aligner

section SpecSide

variable {α : Type} [DecidableEq α]

/-- a and b agree on the k-element runs starting at i and j, every compared
position existing in both lists. -/
def matchRun (a b : List α) (i j k : Nat) : Prop :=
  ∀ t, t < k → cellEq a b (i + t) (j + t) = true

/-- Fuel-driven body of runFwd; any fuel ≥ ahi - i computes the fixed point
(at fuel 0 the invariant forces i ≥ ahi, where the guard is false anyway). -/
def runFwdGo (a b : List α) (ahi bhi : Nat) : Nat → Nat → Nat → Nat
  | 0, _, _ => 0
  | fuel + 1, i, j =>
    if i < ahi ∧ j < bhi ∧ cellEq a b i j = true then
      runFwdGo a b ahi bhi fuel (i + 1) (j + 1) + 1
    else 0

/-- Length of the run of equal tokens starting at (i, j), clipped below ahi
and bhi. -/
def runFwd (a b : List α) (ahi bhi i j : Nat) : Nat :=
  runFwdGo a b ahi bhi (ahi - i) i j

/-- Fuel-driven body of runEnd; any fuel ≥ i + 1 computes the fixed point. -/
def runEndGo (a b : List α) (alo blo : Nat) : Nat → Nat → Nat → Nat
  | 0, _, _ => 0
  | fuel + 1, i, j =>
    if alo ≤ i ∧ blo ≤ j ∧ cellEq a b i j = true then
      (if alo < i ∧ blo < j then runEndGo a b alo blo fuel (i - 1) (j - 1) else 0) + 1
    else 0

/-- Length of the run of equal tokens ending at (i, j), clipped so that it
starts no earlier than (alo, blo). -/
def runEnd (a b : List α) (alo blo i j : Nat) : Nat :=
  runEndGo a b alo blo (i + 1) i j

/-- Start pairs of the window [alo,ahi) x [blo,bhi) in lexicographic order:
reference index major, hypothesis index minor. -/
def cellsOf (alo ahi blo bhi : Nat) : List (Nat × Nat) :=
  (List.range' alo (ahi - alo)).foldr
    (fun i acc => (List.range' blo (bhi - blo)).map (fun j => (i, j)) ++ acc) []

/-- Strict-improvement champion scan: the champion (i, j, size) is replaced
only when the next candidate's value strictly exceeds its size, so a scan
in lexicographic order keeps the lexicographically first maximal candidate.
pos maps a candidate cell and its value to the recorded start pair. -/
def champScan (value : Nat × Nat → Nat) (pos : Nat × Nat → Nat → Nat × Nat) :
    List (Nat × Nat) → Nat × Nat × Nat → Nat × Nat × Nat
  | [], st => st
  | c :: cs, st =>
    champScan value pos cs
      (if st.2.2 < value c then ((pos c (value c)).1, (pos c (value c)).2, value c) else st)

/-- Modelled from the spec, section 4.2: find the longest contiguous run of
tokens identical in both current subranges; among equal-length maximal
matches prefer the smallest reference index, then the smallest hypothesis
index. Realized as a lexicographic champion scan over all start pairs. -/
def specLongestMatch (a b : List α) (alo ahi blo bhi : Nat) : Nat × Nat × Nat :=
  champScan (fun c => runFwd a b ahi bhi c.1 c.2) (fun c _ => c)
    (cellsOf alo ahi blo bhi) (alo, blo, 0)

/-- Modelled from the spec, section 4.2: recursive longest-matching-block
partition; emit an equal opcode for the matched block and recurse on the
subranges before and after it; a subrange pair without a common block
becomes one replace opcode (or delete/insert when one side is empty).
fuel bounds the recursion depth; any fuel ≥ (ahi-alo)+(bhi-blo) gives the
fixed point. -/
def specOpcodesAux (a b : List α) : Nat → Nat → Nat → Nat → Nat → List Opcode
  | 0, _, _, _, _ => []
  | fuel + 1, alo, ahi, blo, bhi =>
    let m := specLongestMatch a b alo ahi blo bhi
    if m.2.2 = 0 then
      if alo < ahi ∧ blo < bhi then [(Tag.replace, alo, ahi, blo, bhi)]
      else if alo < ahi then [(Tag.delete, alo, ahi, blo, bhi)]
      else if blo < bhi then [(Tag.insert, alo, ahi, blo, bhi)]
      else []
    else
      specOpcodesAux a b fuel alo m.1 blo m.2.1 ++
        (Tag.equal, m.1, m.1 + m.2.2, m.2.1, m.2.1 + m.2.2) ::
          specOpcodesAux a b fuel (m.1 + m.2.2) ahi (m.2.1 + m.2.2) bhi

/-- Opcode partition described by the spec, over whole sequences. -/
def specOpcodes (a b : List α) : List Opcode :=
  specOpcodesAux a b (a.length + b.length) 0 a.length 0 b.length

end SpecSide

section AlignerProps

variable {α : Type} [DecidableEq α]

/-- Soundness of a champion triple (i, j, k): either the degenerate
(alo, blo, 0), or a real common run lying inside the window. -/
def SoundBest (a b : List α) (alo ahi blo bhi : Nat) (t : Nat × Nat × Nat) : Prop :=
  (t.2.2 = 0 → t = (alo, blo, 0)) ∧
  (t.2.2 ≠ 0 → alo ≤ t.1 ∧ blo ≤ t.2.1 ∧ t.1 + t.2.2 ≤ ahi ∧ t.2.1 + t.2.2 ≤ bhi ∧
    matchRun a b t.1 t.2.1 t.2.2)

/-- Soundness of the previous-row dictionary fed into row i: a nonzero
entry at column j records a real run of that length ending at (i-1, j)
and starting inside the window. -/
def SoundPrev (a b : List α) (alo blo bhi i : Nat) (prev : Nat → Nat) : Prop :=
  ∀ j, prev j ≠ 0 → 1 ≤ i ∧ blo ≤ j ∧ j < bhi ∧ prev j ≤ j + 1 ∧ prev j ≤ i ∧
    alo ≤ i - prev j ∧ blo ≤ j + 1 - prev j ∧
    matchRun a b (i - prev j) (j + 1 - prev j) (prev j)

/-- Well-formedness of a block list for the opcode walk from cursor
(ci, cj): every block is a real match within bounds and block starts
dominate the running cursor. -/
def GoodBlocks (a b : List α) : Nat → Nat → List Block → Prop
  | _, _, [] => True
  | ci, cj, blk :: rest =>
    ci ≤ blk.1 ∧ cj ≤ blk.2.1 ∧ blk.1 + blk.2.2 ≤ a.length ∧ blk.2.1 + blk.2.2 ≤ b.length ∧
    matchRun a b blk.1 blk.2.1 blk.2.2 ∧
    GoodBlocks a b (blk.1 + blk.2.2) (blk.2.1 + blk.2.2) rest

end AlignerProps

/-- Cursor position after walking a block list. -/
def cursorAfter : List Block → Nat → Nat → Nat × Nat
  | [], i, j => (i, j)
  | blk :: rest, _, _ => cursorAfter rest (blk.1 + blk.2.2) (blk.2.1 + blk.2.2)

/-- Strict lexicographic order on start pairs: smaller reference index
first, then smaller hypothesis index at the same reference index. -/
def lexLt (p q : Nat × Nat) : Prop :=
  p.1 < q.1 ∨ (p.1 = q.1 ∧ p.2 < q.2)

section BestMatch

variable {α : Type} [DecidableEq α]

/-- The characterizing property of the spec's aligner choice (section 4.2):
the triple is a real run of the window, of maximal length among the
window's runs, and among maximal runs it starts lexicographically first;
size zero means the window has no common cell and the triple degenerates
to (alo, blo, 0). -/
def IsBestMatch (a b : List α) (alo ahi blo bhi : Nat) (t : Nat × Nat × Nat) : Prop :=
  (∀ i j k, alo ≤ i → blo ≤ j → i + k ≤ ahi → j + k ≤ bhi →
    matchRun a b i j k → k ≤ t.2.2) ∧
  (t.2.2 = 0 → t = (alo, blo, 0)) ∧
  (t.2.2 ≠ 0 → alo ≤ t.1 ∧ blo ≤ t.2.1 ∧ t.1 + t.2.2 ≤ ahi ∧ t.2.1 + t.2.2 ≤ bhi ∧
    matchRun a b t.1 t.2.1 t.2.2 ∧
    ∀ i j, alo ≤ i → blo ≤ j → i + t.2.2 ≤ ahi → j + t.2.2 ≤ bhi →
      matchRun a b i j t.2.2 → (t.1, t.2.1) = (i, j) ∨ lexLt (t.1, t.2.1) (i, j))

/-- Exact champion over a scanned cell set D: the size is the maximum of
runEnd over D, the triple records the start of the run of an achieving
cell, and that cell is lexicographically first among achieving cells; size
zero degenerates to (alo, blo, 0). -/
def ExactBest (a b : List α) (alo blo : Nat) (D : Nat × Nat → Prop)
    (t : Nat × Nat × Nat) : Prop :=
  (∀ c, D c → runEnd a b alo blo c.1 c.2 ≤ t.2.2) ∧
  (t.2.2 = 0 → t = (alo, blo, 0)) ∧
  (t.2.2 ≠ 0 → ∃ c, D c ∧ runEnd a b alo blo c.1 c.2 = t.2.2 ∧
    t = (c.1 + 1 - t.2.2, c.2 + 1 - t.2.2, t.2.2) ∧
    ∀ c', D c' → runEnd a b alo blo c'.1 c'.2 = t.2.2 → (c = c' ∨ lexLt c c'))

/-- Invariant of the champion scan after the cells of seen have been
consumed: the champion dominates every seen value, a zero champion is the
degenerate initial state, and a nonzero champion is the lexicographically
first seen cell achieving its value. -/
def ChampInv (value : Nat × Nat → Nat) (alo blo : Nat) (seen : List (Nat × Nat))
    (st : Nat × Nat × Nat) : Prop :=
  (∀ c ∈ seen, value c ≤ st.2.2) ∧
  (st.2.2 = 0 → st = (alo, blo, 0)) ∧
  (st.2.2 ≠ 0 → ∃ c ∈ seen, value c = st.2.2 ∧ (st.1, st.2.1) = c ∧
    ∀ c' ∈ seen, value c' = st.2.2 → c = c' ∨ lexLt c c')

end BestMatch

/-- One step of the replace-branch walk of align_sequences at offset k.
A missing token is None in Python; Python truthiness makes a present but
empty string act exactly like None, so both are modelled as "". -/
def replaceStep (refSlice transSlice : List String)
    (acc : List (String × String) × List String × List String) (k : Nat) :
    List (String × String) × List String × List String :=
  let rword := if k < refSlice.length then refSlice.getD k "" else ""
  let tword := if k < transSlice.length then transSlice.getD k "" else ""
  if rword ≠ "" ∧ tword ≠ "" then (acc.1 ++ [(rword, tword)], acc.2.1, acc.2.2)
  else if rword ≠ "" ∧ tword = "" then (acc.1, acc.2.1 ++ [rword], acc.2.2)
  else if rword = "" ∧ tword ≠ "" then (acc.1, acc.2.1, acc.2.2 ++ [tword])
  else acc

/-- Inner loop of the replace branch of align_sequences: walk offset k over
range(max(len(ref_slice), len(trans_slice))), collecting the
(substitutions, deletions, insertions) contributed by the block. -/
def replaceWalk (refSlice transSlice : List String) :
    List (String × String) × List String × List String :=
  (List.range (max refSlice.length transSlice.length)).foldl
    (replaceStep refSlice transSlice) ([], [], [])

/-- Result lists of ORFAssessment.align_sequences, in the source's return
order (hits, substitutions, insertions, deletions). -/
structure AlignResult where
  hits : List (String × String)
  substitutions : List (String × String)
  insertions : List String
  deletions : List String
deriving DecidableEq, Repr

/-- One opcode's contribution in ORFAssessment.align_sequences. Python
indexing reference_words[i] is modelled with getD (walked indices are in
bounds); Python slices l[i1:i2] are modelled with drop/take, which
truncates the same way. -/
def classifyStep (reference_words transcript_words : List String)
    (acc : AlignResult) (op : Opcode) : AlignResult :=
  match op with
  | (Tag.equal, i1, i2, j1, j2) =>
    let pairs := ((List.range' i1 (i2 - i1)).zip (List.range' j1 (j2 - j1))).map
      (fun p => (reference_words.getD p.1 "", transcript_words.getD p.2 ""))
    { acc with hits := acc.hits ++ pairs }
  | (Tag.replace, i1, i2, j1, j2) =>
    let w := replaceWalk ((reference_words.drop i1).take (i2 - i1))
      ((transcript_words.drop j1).take (j2 - j1))
    { acc with
        substitutions := acc.substitutions ++ w.1
        deletions := acc.deletions ++ w.2.1
        insertions := acc.insertions ++ w.2.2 }
  | (Tag.delete, i1, i2, _, _) =>
    let dels := (List.range' i1 (i2 - i1)).map (fun i => reference_words.getD i "")
    { acc with deletions := acc.deletions ++ dels }
  | (Tag.insert, _, _, j1, j2) =>
    let ins := (List.range' j1 (j2 - j1)).map (fun j => transcript_words.getD j "")
    { acc with insertions := acc.insertions ++ ins }

/-- ORFAssessment.align_sequences: run SequenceMatcher(None, a, b)
.get_opcodes() and classify every opcode in order. -/
def align_sequences (reference_words transcript_words : List String) : AlignResult :=
  (get_opcodes reference_words transcript_words).foldl
    (classifyStep reference_words transcript_words)
    { hits := [], substitutions := [], insertions := [], deletions := [] }

/-- Immutable result of ORFAssessment.assess_reading (the ORFResults
namedtuple; the detailed_errors dict is flattened into the three err_
fields). Python floats are modelled as exact rationals. -/
structure ORFResults where
  transcript : String
  target_text : String
  wcpm : ℚ
  hits : Nat
  substitutions : Nat
  insertions : Nat
  deletions : Nat
  wer : ℚ
  accuracy : ℚ
  err_substitutions : List (String × String)
  err_insertions : List String
  err_deletions : List String

/-- Word Error Rate line of assess_reading:
(S + D + I) / N when N > 0, else 0. -/
def werOf (n_subs n_dels n_ins n_ref : Nat) : ℚ :=
  if 0 < n_ref then ((n_subs : ℚ) + n_dels + n_ins) / n_ref else 0

/-- WCPM lines of assess_reading; the source's Python truthiness test on
duration_seconds is false exactly for None and 0, and the inner guard
requires a positive duration_minutes. -/
def wcpmOf (n_hits : Nat) (duration_seconds : Option ℚ) : ℚ :=
  match duration_seconds with
  | none => 0
  | some d =>
    if d = 0 then 0
    else if 0 < d / 60 then (n_hits : ℚ) / (d / 60) else 0

/-- ORFAssessment.assess_reading, modelling the pipeline after the opaque
speech-to-text collaborator: the transcript argument stands for the string
generate_transcript returned. duration_seconds defaults to None. -/
def assess_reading (target_text transcript : String) (duration_seconds : Option ℚ) :
    ORFResults :=
  { transcript := transcript
    target_text := target_text
    wcpm := wcpmOf
      (align_sequences (tokenize target_text) (tokenize transcript)).hits.length
      duration_seconds
    hits := (align_sequences (tokenize target_text) (tokenize transcript)).hits.length
    substitutions :=
      (align_sequences (tokenize target_text) (tokenize transcript)).substitutions.length
    insertions :=
      (align_sequences (tokenize target_text) (tokenize transcript)).insertions.length
    deletions :=
      (align_sequences (tokenize target_text) (tokenize transcript)).deletions.length
    wer := werOf
      (align_sequences (tokenize target_text) (tokenize transcript)).substitutions.length
      (align_sequences (tokenize target_text) (tokenize transcript)).deletions.length
      (align_sequences (tokenize target_text) (tokenize transcript)).insertions.length
      (tokenize target_text).length
    accuracy := 1 - werOf
      (align_sequences (tokenize target_text) (tokenize transcript)).substitutions.length
      (align_sequences (tokenize target_text) (tokenize transcript)).deletions.length
      (align_sequences (tokenize target_text) (tokenize transcript)).insertions.length
      (tokenize target_text).length
    err_substitutions :=
      (align_sequences (tokenize target_text) (tokenize transcript)).substitutions
    err_insertions :=
      (align_sequences (tokenize target_text) (tokenize transcript)).insertions
    err_deletions :=
      (align_sequences (tokenize target_text) (tokenize transcript)).deletions }

/-- ORFAssessment.validate_inputs. The librosa audio checks are an external
collaborator: audio_errors stands for the messages they contributed. The
text check uses Python's bare str.split on the raw text, and its message is
appended after the audio messages, accumulating all problems. -/
def validate_inputs (audio_errors : List String) (text : String) : List String :=
  audio_errors ++
    (if (pySplitStr text).length < 10 then ["Text too short (minimum 10 words)"] else [])

/-- Validation gate of routes.process_assessment: a nonempty error list
raises HTTPException 400 carrying the whole list (the spec's
ValidationError) and assess_reading never runs; otherwise it runs. -/
def process_assessment (audio_errors : List String) (target_text transcript : String)
    (duration_seconds : Option ℚ) : Except (List String) ORFResults :=
  let errs := validate_inputs audio_errors target_text
  if errs = [] then Except.ok (assess_reading target_text transcript duration_seconds)
  else Except.error errs

/-- Two-letter filler tokens, pairwise distinct and distinct from "x". -/
def fillerTok (j : Nat) : String :=
  String.mk [Char.ofNat (65 + j / 15), Char.ofNat (65 + j % 15)]

/-- Reference side of the autojunk counterexamples: four occurrences of the
token "x". -/
def bigRef : List String := ["x", "x", "x", "x"]

/-- Hypothesis side of the autojunk counterexamples: 200 tokens with "x" at
positions 2, 50, 100 and 150 (200 tokens and 4 > 200/100+1 occurrences make
"x" popular, so autojunk purges it) and distinct fillers elsewhere. -/
def bigHyp : List String :=
  (List.range 200).map
    (fun j => if j = 2 ∨ j = 50 ∨ j = 100 ∨ j = 150 then "x" else fillerTok j)

/-!
Theorems. The claim theorems are named c1_... through c10_...; everything
else is helper lemmas.
-/

/-- Values of werOf, case split on a positive reference length. -/
theorem werOf_pos (s d i n : Nat) (hn : 0 < n) :
    werOf s d i n = ((s : ℚ) + d + i) / n := if_pos hn

/-- werOf is nonnegative. -/
theorem werOf_nonneg (s d i n : Nat) : 0 ≤ werOf s d i n := by
  unfold werOf
  split
  · positivity
  · exact le_refl 0

/-- Projection bridge: the wer field of assess_reading. -/
theorem assess_wer (target transcript : String) (d : Option ℚ) :
    (assess_reading target transcript d).wer =
      werOf (assess_reading target transcript d).substitutions
        (assess_reading target transcript d).deletions
        (assess_reading target transcript d).insertions
        (tokenize target).length := by
  simp only [assess_reading]

/-- Projection bridge: the wcpm field of assess_reading. -/
theorem assess_wcpm (target transcript : String) (d : Option ℚ) :
    (assess_reading target transcript d).wcpm =
      wcpmOf (assess_reading target transcript d).hits d := by
  simp only [assess_reading]

/-- C4: for every assessment, with substitution count S, deletion count D,
insertion count I and reference length N, the computed WER equals
(S + D + I) / N when N > 0 and equals 0 when N = 0 (a defined value, never
NaN); consequently WER is nonnegative for every input. -/
theorem c4_wer (target transcript : String) (d : Option ℚ) :
    ((assess_reading target transcript d).wer =
      if 0 < (tokenize target).length then
        (((assess_reading target transcript d).substitutions : ℚ) +
            (assess_reading target transcript d).deletions +
            (assess_reading target transcript d).insertions) /
          ((tokenize target).length : ℚ)
      else 0) ∧
    0 ≤ (assess_reading target transcript d).wer := by
  refine ⟨assess_wer target transcript d, ?_⟩
  rw [assess_wer target transcript d]
  exact werOf_nonneg _ _ _ _

/-- C5: accuracy equals 1 - WER exactly, with no clamping; the concrete
second conjunct exhibits a negative accuracy (1-token reference read as 4
unrelated tokens), showing no adjustment is applied. -/
theorem c5_accuracy (target transcript : String) (d : Option ℚ) :
    (assess_reading target transcript d).accuracy =
      1 - (assess_reading target transcript d).wer ∧
    (assess_reading "ref" "a b c d" none).accuracy < 0 := by
  refine ⟨rfl, ?_⟩
  have h1 : (align_sequences (tokenize "ref") (tokenize "a b c d")).substitutions.length
      = 1 := by decide
  have h2 : (align_sequences (tokenize "ref") (tokenize "a b c d")).deletions.length
      = 0 := by decide
  have h3 : (align_sequences (tokenize "ref") (tokenize "a b c d")).insertions.length
      = 3 := by decide
  have h4 : (tokenize "ref").length = 1 := by decide
  show 1 - werOf (align_sequences (tokenize "ref") (tokenize "a b c d")).substitutions.length
      (align_sequences (tokenize "ref") (tokenize "a b c d")).deletions.length
      (align_sequences (tokenize "ref") (tokenize "a b c d")).insertions.length
      (tokenize "ref").length < 0
  rw [h1, h2, h3, h4]
  norm_num [werOf]

/-- C6: WCPM equals hits / (durationSeconds / 60) when a positive duration
is supplied, and 0 when the duration is absent, zero or negative; it is
always a defined, nonnegative value. -/
theorem c6_wcpm (target transcript : String) (d : Option ℚ) :
    (∀ q : ℚ, d = some q → 0 < q →
      (assess_reading target transcript d).wcpm =
        ((assess_reading target transcript d).hits : ℚ) / (q / 60)) ∧
    (d = none → (assess_reading target transcript d).wcpm = 0) ∧
    (∀ q : ℚ, d = some q → q ≤ 0 → (assess_reading target transcript d).wcpm = 0) ∧
    0 ≤ (assess_reading target transcript d).wcpm := by
  refine ⟨?_, ?_, ?_, ?_⟩
  · rintro q rfl hq
    rw [assess_wcpm]
    simp only [wcpmOf]
    rw [if_neg (ne_of_gt hq), if_pos (by positivity)]
  · rintro rfl
    rfl
  · rintro q rfl hq
    rw [assess_wcpm]
    simp only [wcpmOf]
    rcases eq_or_lt_of_le hq with h0 | h0
    · rw [if_pos h0]
    · rw [if_neg (ne_of_lt h0), if_neg (not_lt.mpr (show q / 60 ≤ 0 by linarith))]
  · rw [assess_wcpm]
    cases d with
    | none => exact le_refl 0
    | some q =>
      simp only [wcpmOf]
      split
      · exact le_refl 0
      · split
        · positivity
        · exact le_refl 0

/-- Witness for c6_wcpm: concrete positive and absent durations. -/
theorem c6_wcpm_witness :
    (assess_reading "the cat" "the cat" (some 60)).wcpm =
      ((assess_reading "the cat" "the cat" (some 60)).hits : ℚ) / ((60 : ℚ) / 60) ∧
    (assess_reading "the cat" "the cat" none).wcpm = 0 := by
  constructor
  · exact (c6_wcpm "the cat" "the cat" (some 60)).1 60 rfl (by norm_num)
  · exact (c6_wcpm "the cat" "the cat" none).2.1 rfl

/-- Character codes: Char comparison is Nat comparison of codepoints. -/
theorem char_eq_toNat (c d : Char) : c = d ↔ c.toNat = d.toNat :=
  Char.ext_iff.trans UInt32.ext_iff

/-- UInt32 comparison is Nat comparison. -/
theorem uint32_le_toNat (a b : UInt32) : a ≤ b ↔ a.toNat ≤ b.toNat := Iff.rfl

/-- Char.ofNat round trip for small codepoints. -/
theorem char_toNat_ofNat {n : Nat} (h : n < 55296) : (Char.ofNat n).toNat = n := by
  unfold Char.ofNat
  split
  · rfl
  · rename_i hv
    exact absurd (Or.inl h) hv

/-- Codepoint characterization of pyIsSpace. -/
theorem pyIsSpace_iff (c : Char) :
    pyIsSpace c = true ↔
      (c.toNat = 32 ∨ c.toNat = 9 ∨ c.toNat = 10 ∨ c.toNat = 13 ∨
        c.toNat = 11 ∨ c.toNat = 12) := by
  have h1 : (' ' : Char).toNat = 32 := rfl
  have h2 : ('\t' : Char).toNat = 9 := rfl
  have h3 : ('\n' : Char).toNat = 10 := rfl
  have h4 : ('\r' : Char).toNat = 13 := rfl
  have h5 : ('\x0b' : Char).toNat = 11 := rfl
  have h6 : ('\x0c' : Char).toNat = 12 := rfl
  unfold pyIsSpace
  simp only [Bool.or_eq_true, decide_eq_true_eq, char_eq_toNat, h1, h2, h3, h4, h5, h6]
  tauto

/-- Codepoint characterization of isWordChar. -/
theorem isWordChar_iff (c : Char) :
    isWordChar c = true ↔
      ((65 ≤ c.toNat ∧ c.toNat ≤ 90) ∨ (97 ≤ c.toNat ∧ c.toNat ≤ 122) ∨
        (48 ≤ c.toNat ∧ c.toNat ≤ 57) ∨ c.toNat = 95) := by
  have h95 : ('_' : Char).toNat = 95 := rfl
  have e65 : (65 : UInt32).toNat = 65 := rfl
  have e90 : (90 : UInt32).toNat = 90 := rfl
  have e97 : (97 : UInt32).toNat = 97 := rfl
  have e122 : (122 : UInt32).toNat = 122 := rfl
  have e48 : (48 : UInt32).toNat = 48 := rfl
  have e57 : (57 : UInt32).toNat = 57 := rfl
  unfold isWordChar Char.isAlpha Char.isUpper Char.isLower Char.isDigit
  simp only [Bool.or_eq_true, Bool.and_eq_true, decide_eq_true_eq, ge_iff_le,
    uint32_le_toNat, e65, e90, e97, e122, e48, e57, char_eq_toNat, h95]
  tauto

/-- Char.toLower is the identity off the uppercase ASCII range. -/
theorem toLower_eq_of_not_upper {c : Char} (h : ¬(65 ≤ c.toNat ∧ c.toNat ≤ 90)) :
    c.toLower = c := by
  unfold Char.toLower
  exact if_neg (fun hc => h ⟨hc.1, hc.2⟩)

/-- Char.toLower adds 32 to an uppercase ASCII codepoint. -/
theorem toLower_toNat_of_upper {c : Char} (h : 65 ≤ c.toNat ∧ c.toNat ≤ 90) :
    c.toLower.toNat = c.toNat + 32 := by
  unfold Char.toLower
  rw [if_pos ⟨h.1, h.2⟩]
  exact char_toNat_ofNat (by omega)

/-- Lowercasing does not change whitespace classification. -/
theorem pyIsSpace_toLower (c : Char) : pyIsSpace c.toLower = pyIsSpace c := by
  by_cases h : 65 ≤ c.toNat ∧ c.toNat ≤ 90
  · have h1 := toLower_toNat_of_upper h
    have e1 : pyIsSpace c.toLower = false := by
      rw [Bool.eq_false_iff]
      intro hs
      rw [pyIsSpace_iff] at hs
      omega
    have e2 : pyIsSpace c = false := by
      rw [Bool.eq_false_iff]
      intro hs
      rw [pyIsSpace_iff] at hs
      omega
    rw [e1, e2]
  · rw [toLower_eq_of_not_upper h]

/-- Lowercasing does not change word-character classification. -/
theorem isWordChar_toLower (c : Char) : isWordChar c.toLower = isWordChar c := by
  by_cases h : 65 ≤ c.toNat ∧ c.toNat ≤ 90
  · have h1 := toLower_toNat_of_upper h
    have e1 : isWordChar c.toLower = true := (isWordChar_iff _).mpr (by omega)
    have e2 : isWordChar c = true := (isWordChar_iff _).mpr (by omega)
    rw [e1, e2]
  · rw [toLower_eq_of_not_upper h]

/-- Char.toLower is idempotent. -/
theorem toLower_idem (c : Char) : c.toLower.toLower = c.toLower := by
  by_cases h : 65 ≤ c.toNat ∧ c.toNat ≤ 90
  · have h1 := toLower_toNat_of_upper h
    exact toLower_eq_of_not_upper (by omega)
  · rw [toLower_eq_of_not_upper h, toLower_eq_of_not_upper h]

/-- Fuel irrelevance for pySplitGo. -/
theorem pySplitGo_congr : ∀ (f g : Nat) (l : List Char), l.length ≤ f → l.length ≤ g →
    pySplitGo f l = pySplitGo g l := by
  intro f
  induction f with
  | zero =>
    intro g l hf _
    have hl : l = [] := List.eq_nil_of_length_eq_zero (Nat.le_zero.mp hf)
    subst hl
    cases g with
    | zero => rfl
    | succ g => rfl
  | succ f ih =>
    intro g l hf hg
    cases l with
    | nil =>
      cases g with
      | zero => rfl
      | succ g => rfl
    | cons c rest =>
      cases g with
      | zero => simp at hg
      | succ g =>
        simp only [pySplitGo]
        simp only [List.length_cons] at hf hg
        by_cases hc : pyIsSpace c
        · rw [if_pos hc, if_pos hc]
          exact ih g rest (by omega) (by omega)
        · rw [if_neg hc, if_neg hc]
          have hlen := (List.dropWhile_suffix (l := rest) (fun d => !pyIsSpace d)).length_le
          rw [ih g _ (by omega) (by omega)]

/-- Recursion equation of pySplitAux on cons. -/
theorem pySplitAux_cons (c : Char) (rest : List Char) :
    pySplitAux (c :: rest) =
      if pyIsSpace c then pySplitAux rest
      else (c :: rest.takeWhile (fun d => !pyIsSpace d)) ::
        pySplitAux (rest.dropWhile (fun d => !pyIsSpace d)) := by
  show pySplitGo (rest.length + 1) (c :: rest) = _
  simp only [pySplitGo]
  by_cases hc : pyIsSpace c
  · rw [if_pos hc, if_pos hc]
    rfl
  · rw [if_neg hc, if_neg hc]
    have hlen := (List.dropWhile_suffix (l := rest) (fun d => !pyIsSpace d)).length_le
    rw [pySplitGo_congr rest.length _ _ hlen (le_refl _)]
    rfl

/-- Fuel irrelevance for collapseWsGo. -/
theorem collapseWsGo_congr : ∀ (f g : Nat) (l : List Char), l.length ≤ f → l.length ≤ g →
    collapseWsGo f l = collapseWsGo g l := by
  intro f
  induction f with
  | zero =>
    intro g l hf _
    have hl : l = [] := List.eq_nil_of_length_eq_zero (Nat.le_zero.mp hf)
    subst hl
    cases g with
    | zero => rfl
    | succ g => rfl
  | succ f ih =>
    intro g l hf hg
    cases l with
    | nil =>
      cases g with
      | zero => rfl
      | succ g => rfl
    | cons c rest =>
      cases g with
      | zero => simp at hg
      | succ g =>
        simp only [collapseWsGo]
        simp only [List.length_cons] at hf hg
        by_cases hc : pyIsSpace c
        · rw [if_pos hc, if_pos hc]
          have hlen := (List.dropWhile_suffix (l := rest) pyIsSpace).length_le
          rw [ih g _ (by omega) (by omega)]
        · rw [if_neg hc, if_neg hc]
          rw [ih g rest (by omega) (by omega)]

/-- Recursion equation of collapseWs on cons. -/
theorem collapseWs_cons (c : Char) (rest : List Char) :
    collapseWs (c :: rest) =
      if pyIsSpace c then ' ' :: collapseWs (rest.dropWhile pyIsSpace)
      else c :: collapseWs rest := by
  show collapseWsGo (rest.length + 1) (c :: rest) = _
  simp only [collapseWsGo]
  by_cases hc : pyIsSpace c
  · rw [if_pos hc, if_pos hc]
    have hlen := (List.dropWhile_suffix (l := rest) pyIsSpace).length_le
    rw [collapseWsGo_congr rest.length _ _ hlen (le_refl _)]
    rfl
  · rw [if_neg hc, if_neg hc]
    rfl

/-- Splitting an all-whitespace character list yields no chunks. -/
theorem pySplitAux_of_all_space (l : List Char) (h : ∀ c ∈ l, pyIsSpace c = true) :
    pySplitAux l = [] := by
  induction l with
  | nil => rfl
  | cons c rest ih =>
    rw [pySplitAux_cons, if_pos (h c (List.mem_cons_self c rest))]
    exact ih (fun d hd => h d (List.mem_cons_of_mem c hd))

/-- Leading whitespace does not affect the split. -/
theorem pySplitAux_dropWhile_space (l : List Char) :
    pySplitAux (l.dropWhile pyIsSpace) = pySplitAux l := by
  induction l with
  | nil => rfl
  | cons c rest ih =>
    rw [List.dropWhile_cons]
    by_cases hc : pyIsSpace c
    · rw [if_pos hc, ih, pySplitAux_cons, if_pos hc]
    · rw [if_neg hc]

/-- Trailing whitespace does not affect the leading nonspace chunk. -/
theorem takeWhile_ns_append_space (l t : List Char) (ht : ∀ c ∈ t, pyIsSpace c = true) :
    (l ++ t).takeWhile (fun d => !pyIsSpace d) = l.takeWhile (fun d => !pyIsSpace d) := by
  induction l with
  | nil =>
    simp only [List.nil_append, List.takeWhile_nil]
    cases t with
    | nil => rfl
    | cons c t0 =>
      rw [List.takeWhile_cons, if_neg]
      simp [ht c (List.mem_cons_self c t0)]
  | cons c rest ih =>
    simp only [List.cons_append, List.takeWhile_cons]
    by_cases hc : pyIsSpace c
    · rw [if_neg (by simp [hc]), if_neg (by simp [hc])]
    · rw [if_pos (by simp [hc]), if_pos (by simp [hc]), ih]

/-- Dropping the leading nonspace chunk commutes with appending trailing
whitespace. -/
theorem dropWhile_ns_append_space (l t : List Char) (ht : ∀ c ∈ t, pyIsSpace c = true) :
    (l ++ t).dropWhile (fun d => !pyIsSpace d) = l.dropWhile (fun d => !pyIsSpace d) ++ t := by
  induction l with
  | nil =>
    simp only [List.nil_append, List.dropWhile_nil]
    cases t with
    | nil => rfl
    | cons c t0 =>
      rw [List.dropWhile_cons, if_neg]
      simp [ht c (List.mem_cons_self c t0)]
  | cons c rest ih =>
    simp only [List.cons_append, List.dropWhile_cons]
    by_cases hc : pyIsSpace c
    · rw [if_neg (by simp [hc]), if_neg (by simp [hc])]
      rfl
    · rw [if_pos (by simp [hc]), if_pos (by simp [hc]), ih]

/-- Trailing whitespace does not affect the split. -/
theorem pySplitAux_append_space : ∀ (n : Nat) (l t : List Char), l.length ≤ n →
    (∀ c ∈ t, pyIsSpace c = true) → pySplitAux (l ++ t) = pySplitAux l := by
  intro n
  induction n with
  | zero =>
    intro l t hl ht
    have : l = [] := List.eq_nil_of_length_eq_zero (Nat.le_zero.mp hl)
    subst this
    simpa using pySplitAux_of_all_space t ht
  | succ n ih =>
    intro l t hl ht
    cases l with
    | nil => simpa using pySplitAux_of_all_space t ht
    | cons c rest =>
      simp only [List.length_cons] at hl
      rw [List.cons_append, pySplitAux_cons, pySplitAux_cons]
      by_cases hc : pyIsSpace c
      · rw [if_pos hc, if_pos hc]
        exact ih rest t (by omega) ht
      · rw [if_neg hc, if_neg hc, takeWhile_ns_append_space rest t ht,
          dropWhile_ns_append_space rest t ht]
        have hlen := (List.dropWhile_suffix (l := rest) (fun d => !pyIsSpace d)).length_le
        rw [ih _ t (by omega) ht]

/-- Stripping leading and trailing whitespace does not affect the split. -/
theorem pySplitAux_pyStrip (l : List Char) : pySplitAux (pyStrip l) = pySplitAux l := by
  have hA : l.dropWhile pyIsSpace =
      pyStrip l ++ ((l.dropWhile pyIsSpace).reverse.takeWhile pyIsSpace).reverse := by
    unfold pyStrip
    conv_lhs => rw [← List.reverse_reverse (l.dropWhile pyIsSpace),
      ← List.takeWhile_append_dropWhile pyIsSpace (l.dropWhile pyIsSpace).reverse,
      List.reverse_append]
  have ht : ∀ c ∈ ((l.dropWhile pyIsSpace).reverse.takeWhile pyIsSpace).reverse,
      pyIsSpace c = true := by
    intro c hc
    exact List.mem_takeWhile_imp (List.mem_reverse.mp hc)
  calc pySplitAux (pyStrip l)
      = pySplitAux (pyStrip l ++
          ((l.dropWhile pyIsSpace).reverse.takeWhile pyIsSpace).reverse) :=
        (pySplitAux_append_space (pyStrip l).length _ _ (le_refl _) ht).symm
    _ = pySplitAux (l.dropWhile pyIsSpace) := by rw [← hA]
    _ = pySplitAux l := pySplitAux_dropWhile_space l

/-- The leading nonspace chunk is unchanged by whitespace collapsing. -/
theorem takeWhile_ns_collapseWs : ∀ (n : Nat) (l : List Char), l.length ≤ n →
    (collapseWs l).takeWhile (fun d => !pyIsSpace d) = l.takeWhile (fun d => !pyIsSpace d) := by
  intro n
  induction n with
  | zero =>
    intro l hl
    have : l = [] := List.eq_nil_of_length_eq_zero (Nat.le_zero.mp hl)
    subst this
    rfl
  | succ n ih =>
    intro l hl
    cases l with
    | nil => rfl
    | cons c rest =>
      simp only [List.length_cons] at hl
      rw [collapseWs_cons]
      by_cases hc : pyIsSpace c
      · rw [if_pos hc, List.takeWhile_cons, List.takeWhile_cons,
          if_neg (by decide), if_neg (by simp [hc])]
      · rw [if_neg hc, List.takeWhile_cons, List.takeWhile_cons,
          if_pos (by simp [hc]), if_pos (by simp [hc]), ih rest (by omega)]

/-- Dropping the leading nonspace chunk commutes with whitespace collapsing. -/
theorem dropWhile_ns_collapseWs : ∀ (n : Nat) (l : List Char), l.length ≤ n →
    (collapseWs l).dropWhile (fun d => !pyIsSpace d) =
      collapseWs (l.dropWhile (fun d => !pyIsSpace d)) := by
  intro n
  induction n with
  | zero =>
    intro l hl
    have : l = [] := List.eq_nil_of_length_eq_zero (Nat.le_zero.mp hl)
    subst this
    rfl
  | succ n ih =>
    intro l hl
    cases l with
    | nil => rfl
    | cons c rest =>
      simp only [List.length_cons] at hl
      rw [collapseWs_cons]
      by_cases hc : pyIsSpace c
      · rw [if_pos hc, List.dropWhile_cons, if_neg (by decide), List.dropWhile_cons,
          if_neg (by simp [hc]), collapseWs_cons, if_pos hc]
      · rw [if_neg hc, List.dropWhile_cons, List.dropWhile_cons,
          if_pos (by simp [hc]), if_pos (by simp [hc]), ih rest (by omega)]

/-- Collapsing whitespace runs does not affect the split. -/
theorem pySplitAux_collapseWs : ∀ (n : Nat) (l : List Char), l.length ≤ n →
    pySplitAux (collapseWs l) = pySplitAux l := by
  intro n
  induction n with
  | zero =>
    intro l hl
    have : l = [] := List.eq_nil_of_length_eq_zero (Nat.le_zero.mp hl)
    subst this
    rfl
  | succ n ih =>
    intro l hl
    cases l with
    | nil => rfl
    | cons c rest =>
      simp only [List.length_cons] at hl
      rw [collapseWs_cons]
      by_cases hc : pyIsSpace c
      · rw [if_pos hc, pySplitAux_cons, if_pos (by decide)]
        have hlen := (List.dropWhile_suffix (l := rest) pyIsSpace).length_le
        rw [ih (rest.dropWhile pyIsSpace) (by omega), pySplitAux_dropWhile_space,
          pySplitAux_cons, if_pos hc]
      · rw [if_neg hc, pySplitAux_cons, if_neg hc, pySplitAux_cons, if_neg hc,
          takeWhile_ns_collapseWs rest.length rest (le_refl _),
          dropWhile_ns_collapseWs rest.length rest (le_refl _)]
        have hlen := (List.dropWhile_suffix (l := rest) (fun d => !pyIsSpace d)).length_le
        rw [ih _ (by omega)]

/-- Lowercasing commutes with the split. -/
theorem pySplitAux_map_toLower : ∀ (n : Nat) (l : List Char), l.length ≤ n →
    pySplitAux (l.map Char.toLower) = (pySplitAux l).map (List.map Char.toLower) := by
  have hfun : ((fun d => !pyIsSpace d) ∘ Char.toLower) = (fun d => !pyIsSpace d) := by
    funext d
    simp [Function.comp, pyIsSpace_toLower]
  intro n
  induction n with
  | zero =>
    intro l hl
    have : l = [] := List.eq_nil_of_length_eq_zero (Nat.le_zero.mp hl)
    subst this
    rfl
  | succ n ih =>
    intro l hl
    cases l with
    | nil => rfl
    | cons c rest =>
      simp only [List.length_cons] at hl
      rw [List.map_cons, pySplitAux_cons, pySplitAux_cons, pyIsSpace_toLower]
      by_cases hc : pyIsSpace c
      · rw [if_pos hc, if_pos hc]
        exact ih rest (by omega)
      · rw [if_neg hc, if_neg hc, List.takeWhile_map, List.dropWhile_map, hfun]
        have hlen := (List.dropWhile_suffix (l := rest) (fun d => !pyIsSpace d)).length_le
        rw [ih _ (by omega)]
        rfl

/-- Normalization characterized: the tokens of a string are obtained by
deleting every non-word non-whitespace character, lowercasing, and
splitting on whitespace runs (collapsing and stripping are absorbed by the
split). -/
theorem tokenize_characterization (s : String) :
    tokenize s = (pySplitAux ((stripNonWord s.data).map Char.toLower)).map String.mk := by
  unfold tokenize pySplitStr clean_text
  rw [show (String.mk ((pyStrip (collapseWs (stripNonWord s.data))).map Char.toLower)).data
      = (pyStrip (collapseWs (stripNonWord s.data))).map Char.toLower from rfl]
  rw [pySplitAux_map_toLower _ _ (le_refl _), pySplitAux_map_toLower _ _ (le_refl _),
    pySplitAux_pyStrip, pySplitAux_collapseWs _ _ (le_refl _)]

/-- C7: normalization strips all non-word non-whitespace characters,
lowercases, and splits on whitespace (whitespace collapsing and stripping
are exactly absorbed by the split); empty or whitespace-only input yields
an empty token sequence; and the pinned example "Hello, world!! Foo-bar."
tokenizes to ["hello","world","foobar"]. Characters are modelled over the
ASCII range. -/
theorem c7_normalization (s : String) :
    tokenize "Hello, world!! Foo-bar." = ["hello", "world", "foobar"] ∧
    ((∀ c ∈ s.data, pyIsSpace c = true) → tokenize s = []) ∧
    tokenize s = (pySplitAux ((stripNonWord s.data).map Char.toLower)).map String.mk := by
  refine ⟨by decide, ?_, tokenize_characterization s⟩
  intro hs
  rw [tokenize_characterization s, pySplitAux_of_all_space]
  · rfl
  · intro c hc
    rcases List.mem_map.mp hc with ⟨c0, hc0, rfl⟩
    rw [pyIsSpace_toLower]
    exact hs c0 (List.mem_of_mem_filter hc0)

/-- Witness for c7_normalization: a whitespace-only input. -/
theorem c7_normalization_witness :
    (∀ c ∈ ("  \t ").data, pyIsSpace c = true) ∧ tokenize "  \t " = [] :=
  ⟨by decide, (c7_normalization "  \t ").2.1 (by decide)⟩

/-- Prefix characterization of the replace-branch walk: after the first n
offsets, the walk has collected the first n positional pairs as
substitutions, the reference leftovers up to offset n as deletions and the
hypothesis leftovers up to offset n as insertions. -/
theorem replaceWalk_take (r h : List String) (hr : ∀ w ∈ r, w ≠ "")
    (hh : ∀ w ∈ h, w ≠ "") :
    ∀ n : Nat, (List.range n).foldl (replaceStep r h) ([], [], []) =
      ((r.zip h).take n, (r.drop h.length).take (n - h.length),
        (h.drop r.length).take (n - r.length)) := by
  intro n
  induction n with
  | zero => simp
  | succ n ih =>
    rw [List.range_succ, List.foldl_append, ih]
    simp only [List.foldl_cons, List.foldl_nil]
    unfold replaceStep
    by_cases hrn : n < r.length
    · have hrw : (if n < r.length then r.getD n "" else "") = r[n] := by
        rw [if_pos hrn, List.getD_eq_getElem r "" hrn]
      have hne_r : r[n] ≠ "" := hr _ (List.getElem_mem hrn)
      by_cases hhn : n < h.length
      · have htw : (if n < h.length then h.getD n "" else "") = h[n] := by
          rw [if_pos hhn, List.getD_eq_getElem h "" hhn]
        have hne_h : h[n] ≠ "" := hh _ (List.getElem_mem hhn)
        rw [hrw, htw, if_pos ⟨hne_r, hne_h⟩]
        simp only [Prod.mk.injEq]
        refine ⟨?_, ?_, ?_⟩
        · rw [List.take_succ]
          have : (r.zip h)[n]? = some (r[n], h[n]) :=
            List.getElem?_zip_eq_some.mpr
              ⟨List.getElem?_eq_getElem hrn, List.getElem?_eq_getElem hhn⟩
          rw [this]
          rfl
        · have : n + 1 - h.length = n - h.length := by omega
          rw [this]
        · have : n + 1 - r.length = n - r.length := by omega
          rw [this]
      · rw [hrw, if_neg (fun c => hhn c), if_neg (by simp), if_pos ⟨hne_r, rfl⟩]
        simp only [Prod.mk.injEq]
        refine ⟨?_, ?_, ?_⟩
        · have hz : (r.zip h).length ≤ n :=
            le_trans (by rw [List.length_zip]; exact min_le_right _ _) (le_of_not_lt hhn)
          rw [List.take_of_length_le hz, List.take_of_length_le (le_trans hz (Nat.le_succ n))]
        · rw [show n + 1 - h.length = (n - h.length) + 1 from by omega, List.take_succ]
          have : (r.drop h.length)[n - h.length]? = some r[n] := by
            rw [List.getElem?_drop, show h.length + (n - h.length) = n from by omega]
            exact List.getElem?_eq_getElem hrn
          rw [this]
          rfl
        · have : n + 1 - r.length = n - r.length := by omega
          rw [this]
    · by_cases hhn : n < h.length
      · have htw : (if n < h.length then h.getD n "" else "") = h[n] := by
          rw [if_pos hhn, List.getD_eq_getElem h "" hhn]
        have hne_h : h[n] ≠ "" := hh _ (List.getElem_mem hhn)
        rw [htw, if_neg (fun c => hrn c), if_neg (by simp), if_neg (by simp [hne_h]),
          if_pos ⟨rfl, hne_h⟩]
        simp only [Prod.mk.injEq]
        refine ⟨?_, ?_, ?_⟩
        · have hz : (r.zip h).length ≤ n :=
            le_trans (by rw [List.length_zip]; exact min_le_left _ _) (le_of_not_lt hrn)
          rw [List.take_of_length_le hz, List.take_of_length_le (le_trans hz (Nat.le_succ n))]
        · have : n + 1 - h.length = n - h.length := by omega
          rw [this]
        · rw [show n + 1 - r.length = (n - r.length) + 1 from by omega, List.take_succ]
          have : (h.drop r.length)[n - r.length]? = some h[n] := by
            rw [List.getElem?_drop, show r.length + (n - r.length) = n from by omega]
            exact List.getElem?_eq_getElem hhn
          rw [this]
          rfl
      · rw [if_neg (fun c => hrn c), if_neg (fun c => hhn c), if_neg (by simp),
          if_neg (by simp), if_neg (by simp)]
        simp only [Prod.mk.injEq]
        refine ⟨?_, ?_, ?_⟩
        · have hz : (r.zip h).length ≤ n :=
            le_trans (by rw [List.length_zip]; exact min_le_left _ _) (le_of_not_lt hrn)
          rw [List.take_of_length_le hz, List.take_of_length_le (le_trans hz (Nat.le_succ n))]
        · have hd : (r.drop h.length).length ≤ n - h.length := by
            rw [List.length_drop]
            omega
          rw [List.take_of_length_le hd, List.take_of_length_le (le_trans hd (by omega))]
        · have hd : (h.drop r.length).length ≤ n - r.length := by
            rw [List.length_drop]
            omega
          rw [List.take_of_length_le hd, List.take_of_length_le (le_trans hd (by omega))]

/-- C3: inside a replace block (reference slice r, hypothesis slice h, of
possibly unequal length), the walk over offsets 0..max-1 pairs every offset
covered by both slices as a substitution in order, emits each reference
token beyond the hypothesis length as a deletion, and each hypothesis token
beyond the reference length as an insertion: positional pairing with no
re-recursion. Stated for slices of real tokens (nonempty strings, as
produced by tokenization; Python truthiness makes the walk treat an empty
string like a missing token). -/
theorem c3_replace_classification (r h : List String) (hr : ∀ w ∈ r, w ≠ "")
    (hh : ∀ w ∈ h, w ≠ "") :
    replaceWalk r h = (r.zip h, r.drop h.length, h.drop r.length) := by
  unfold replaceWalk
  rw [replaceWalk_take r h hr hh (max r.length h.length)]
  simp only [Prod.mk.injEq]
  refine ⟨?_, ?_, ?_⟩
  · exact List.take_of_length_le
      (by rw [List.length_zip]; exact le_trans (min_le_left _ _) (le_max_left _ _))
  · exact List.take_of_length_le (by rw [List.length_drop]; omega)
  · exact List.take_of_length_le (by rw [List.length_drop]; omega)

/-- Witness for c3_replace_classification: a 2-versus-1 replace block gives
one substitution and one deletion. -/
theorem c3_replace_classification_witness :
    replaceWalk ["aa", "bb"] ["cc"] =
      (List.zip ["aa", "bb"] ["cc"], List.drop (List.length ["cc"]) ["aa", "bb"],
        List.drop (List.length ["aa", "bb"]) ["cc"]) :=
  c3_replace_classification ["aa", "bb"] ["cc"] (by decide) (by decide)

/-- C8 counterexample: a target text whose normalized tokenization has 9
words (fewer than 10; the trailing raw chunk is bare punctuation that
clean_text would delete), yet validation passes, the gate returns ok and
metrics are produced. The source counts len(text.split()), which is 10
here, not the claim's tokenization. -/
theorem c8_counterexample :
    (tokenize "a b c d e f g h i !").length < 10 ∧
    validate_inputs [] "a b c d e f g h i !" = [] ∧
    process_assessment [] "a b c d e f g h i !" "" none =
      Except.ok (assess_reading "a b c d e f g h i !" "" none) := by
  refine ⟨by decide, by decide, ?_⟩
  rfl

/-- C8 (amended): whenever the raw whitespace-split of the target text has
fewer than 10 chunks (the source's len(text.split()) criterion, which
replaces the claim's "tokenizes to fewer than 10 words"), validation fails
with "Text too short (minimum 10 words)" inside the complete accumulated
error list, after whatever audio problems the external checks contributed,
and the gate produces an error rather than metrics. -/
theorem c8_short_text_rejected (audio_errors : List String) (target transcript : String)
    (d : Option ℚ) (hshort : (pySplitStr target).length < 10) :
    validate_inputs audio_errors target =
      audio_errors ++ ["Text too short (minimum 10 words)"] ∧
    "Text too short (minimum 10 words)" ∈ validate_inputs audio_errors target ∧
    process_assessment audio_errors target transcript d =
      Except.error (audio_errors ++ ["Text too short (minimum 10 words)"]) := by
  have hval : validate_inputs audio_errors target =
      audio_errors ++ ["Text too short (minimum 10 words)"] := by
    unfold validate_inputs
    rw [if_pos hshort]
  refine ⟨hval, ?_, ?_⟩
  · rw [hval]
    exact List.mem_append_right _ (List.mem_singleton_self _)
  · unfold process_assessment
    rw [hval]
    simp

/-- Witness for c8_short_text_rejected: a five-word target text with one
audio problem accumulated in the same list. -/
theorem c8_short_text_rejected_witness :
    (pySplitStr "one two three four five").length < 10 ∧
    process_assessment ["Audio level too low"] "one two three four five" "" none =
      Except.error (["Audio level too low"] ++ ["Text too short (minimum 10 words)"]) :=
  ⟨by decide,
    (c8_short_text_rejected ["Audio level too low"] "one two three four five" "" none
      (by decide)).2.2⟩

section AlignSound

variable {α : Type} [DecidableEq α]

/-- cellEq characterized by get?. -/
theorem cellEq_iff (a b : List α) (i j : Nat) :
    cellEq a b i j = true ↔ ∃ x, a.get? i = some x ∧ b.get? j = some x := by
  unfold cellEq
  rcases ha : a.get? i with _ | x
  · simp
  · rcases hb : b.get? j with _ | y
    · simp
    · simp only [decide_eq_true_eq]
      constructor
      · rintro rfl
        exact ⟨x, rfl, rfl⟩
      · rintro ⟨z, hz1, hz2⟩
        rw [Option.some.injEq] at hz1 hz2
        rw [hz1, hz2]

/-- A symmetric convenience: cellEq from two get? facts. -/
theorem cellEq_of_get (a b : List α) {i j : Nat} {x : α}
    (ha : a.get? i = some x) (hb : b.get? j = some x) : cellEq a b i j = true :=
  (cellEq_iff a b i j).mpr ⟨x, ha, hb⟩

/-- Empty runs match. -/
theorem matchRun_zero (a b : List α) (i j : Nat) : matchRun a b i j 0 :=
  fun t ht => absurd ht (Nat.not_lt_zero t)

/-- Singleton runs match at a matching cell. -/
theorem matchRun_one (a b : List α) (i j : Nat) (h : cellEq a b i j = true) :
    matchRun a b i j 1 := by
  intro t ht
  have h0 : t = 0 := by omega
  subst h0
  simpa using h

/-- Extend a run by one matching cell at the back. -/
theorem matchRun_succ_right (a b : List α) (i j k : Nat) (h : matchRun a b i j k)
    (hc : cellEq a b (i + k) (j + k) = true) : matchRun a b i j (k + 1) := by
  intro t ht
  by_cases h1 : t < k
  · exact h t h1
  · have h0 : t = k := by omega
    subst h0
    exact hc

/-- Extend a run by one matching cell at the front. -/
theorem matchRun_succ_left (a b : List α) (i j k : Nat) (hc : cellEq a b i j = true)
    (h : matchRun a b (i + 1) (j + 1) k) : matchRun a b i j (k + 1) := by
  intro t ht
  cases t with
  | zero => simpa using hc
  | succ t =>
    have e1 : i + (t + 1) = i + 1 + t := by omega
    have e2 : j + (t + 1) = j + 1 + t := by omega
    rw [e1, e2]
    exact h t (by omega)

/-- Concatenate two runs meeting end to start. -/
theorem matchRun_concat (a b : List α) (i j k1 k2 : Nat) (h1 : matchRun a b i j k1)
    (h2 : matchRun a b (i + k1) (j + k1) k2) : matchRun a b i j (k1 + k2) := by
  intro t ht
  by_cases hlt : t < k1
  · exact h1 t hlt
  · have e1 : i + t = i + k1 + (t - k1) := by omega
    have e2 : j + t = j + k1 + (t - k1) := by omega
    rw [e1, e2]
    exact h2 (t - k1) (by omega)

/-- Shorten a run. -/
theorem matchRun_mono (a b : List α) (i j : Nat) {k k' : Nat} (h : k' ≤ k)
    (hm : matchRun a b i j k) : matchRun a b i j k' :=
  fun t ht => hm t (lt_of_lt_of_le ht h)

/-- Members of b2j are positions of x in b. -/
theorem mem_b2j {b : List α} {x : α} {j : Nat} (h : j ∈ b2j b x) :
    b.get? j = some x := by
  unfold b2j at h
  split at h
  · simp at h
  · unfold indicesOf at h
    exact of_decide_eq_true (List.mem_filter.mp h).2

/-- The inner DP loop preserves best-soundness and produces a sound new
dictionary for the next row. -/
theorem flmRowAux_sound (a b : List α) (alo ahi blo bhi i : Nat)
    (hialo : alo ≤ i) (hiahi : i < ahi) (x : α) (hx : a.get? i = some x)
    (prev : Nat → Nat) (hprev : SoundPrev a b alo blo bhi i prev) :
    ∀ (js : List Nat) (st : FlmSt),
      (∀ j ∈ js, b.get? j = some x) →
      SoundBest a b alo ahi blo bhi (st.besti, st.bestj, st.bestsize) →
      SoundPrev a b alo blo bhi (i + 1) st.j2len →
      SoundBest a b alo ahi blo bhi
        ((flmRowAux i blo bhi prev js st).besti, (flmRowAux i blo bhi prev js st).bestj,
          (flmRowAux i blo bhi prev js st).bestsize) ∧
      SoundPrev a b alo blo bhi (i + 1) (flmRowAux i blo bhi prev js st).j2len := by
  intro js
  induction js with
  | nil =>
    intro st _ hb hd
    exact ⟨hb, hd⟩
  | cons j js ih =>
    intro st hjs hb hd
    simp only [flmRowAux]
    by_cases h1 : j < blo
    · rw [if_pos h1]
      exact ih st (fun j' hj' => hjs j' (List.mem_cons_of_mem j hj')) hb hd
    · rw [if_neg h1]
      by_cases h2 : bhi ≤ j
      · rw [if_pos h2]
        exact ⟨hb, hd⟩
      · rw [if_neg h2]
        have hblo : blo ≤ j := le_of_not_lt h1
        have hbhi : j < bhi := lt_of_not_le h2
        have hcell : cellEq a b i j = true :=
          cellEq_of_get a b hx (hjs j (List.mem_cons_self j js))
        set m := (if j = 0 then 0 else prev (j - 1)) with hm
        have hfacts : matchRun a b (i + 1 - (m + 1)) (j + 1 - (m + 1)) (m + 1) ∧
            alo ≤ i + 1 - (m + 1) ∧ blo ≤ j + 1 - (m + 1) ∧
            m + 1 ≤ i + 1 ∧ m + 1 ≤ j + 1 := by
          by_cases hm0 : m = 0
          · rw [hm0]
            have e1 : i + 1 - 1 = i := by omega
            have e2 : j + 1 - 1 = j := by omega
            rw [e1, e2]
            exact ⟨matchRun_one a b i j hcell, hialo, hblo, by omega, by omega⟩
          · have hj0 : j ≠ 0 := by
              intro h0
              rw [h0, if_pos rfl] at hm
              exact hm0 hm
            have hmp : m = prev (j - 1) := by
              rw [hm, if_neg hj0]
            have hp := hprev (j - 1) (by rw [← hmp]; exact hm0)
            rw [← hmp] at hp
            obtain ⟨hp1, hp2, hp3, hp4, hp5, hp6, hp7, hp8⟩ := hp
            have ej : j - 1 + 1 = j := by omega
            rw [ej] at hp7 hp8
            have hmj : m ≤ j := by omega
            have hrun : matchRun a b (i - m) (j - m) (m + 1) := by
              apply matchRun_succ_right a b (i - m) (j - m) m hp8
              have e1 : i - m + m = i := by omega
              have e2 : j - m + m = j := by omega
              rw [e1, e2]
              exact hcell
            have e1 : i + 1 - (m + 1) = i - m := by omega
            have e2 : j + 1 - (m + 1) = j - m := by omega
            rw [e1, e2]
            exact ⟨hrun, hp6, hp7, by omega, by omega⟩
        obtain ⟨hrun, hs1, hs2, hs3, hs4⟩ := hfacts
        apply ih
        · exact fun j' hj' => hjs j' (List.mem_cons_of_mem j hj')
        · dsimp only
          by_cases hcase : st.bestsize < m + 1
          · simp only [if_pos hcase]
            constructor
            · intro h0
              simp at h0
            · intro _
              refine ⟨hs1, hs2, ?_, ?_, hrun⟩
              · have : i + 1 - (m + 1) + (m + 1) = i + 1 := by omega
                rw [this]
                omega
              · have : j + 1 - (m + 1) + (m + 1) = j + 1 := by omega
                rw [this]
                omega
          · simp only [if_neg hcase]
            exact hb
        · intro j' hj'
          dsimp only at hj' ⊢
          by_cases hjj : j' = j
          · subst hjj
            rw [Function.update_same] at hj' ⊢
            refine ⟨by omega, hblo, hbhi, hs4, hs3, ?_, hs2, ?_⟩
            · have : i + 1 - (m + 1) = i - m := by omega
              omega
            · exact hrun
          · rw [Function.update_noteq hjj] at hj' ⊢
            exact hd j' hj'

/-- The row loop preserves best-soundness. -/
theorem flmRows_sound (a b : List α) (alo ahi blo bhi : Nat) :
    ∀ (cnt r : Nat) (st : FlmSt), alo ≤ r → r + cnt ≤ ahi →
      SoundPrev a b alo blo bhi r st.j2len →
      SoundBest a b alo ahi blo bhi (st.besti, st.bestj, st.bestsize) →
      SoundBest a b alo ahi blo bhi
        ((flmRows a b blo bhi (List.range' r cnt) st).besti,
          (flmRows a b blo bhi (List.range' r cnt) st).bestj,
          (flmRows a b blo bhi (List.range' r cnt) st).bestsize) := by
  intro cnt
  induction cnt with
  | zero =>
    intro r st _ _ _ hb
    exact hb
  | succ cnt ih =>
    intro r st hr hcnt hd hb
    rw [List.range'_succ]
    simp only [flmRows]
    rcases hx : a.get? r with _ | x
    · simp only [hx]
      apply ih (r + 1) _ (by omega) (by omega)
      · simp only [flmRowAux]
        intro j hj
        simp at hj
      · simp only [flmRowAux]
        exact hb
    · simp only [hx]
      have hres := flmRowAux_sound a b alo ahi blo bhi r hr (by omega) x hx st.j2len hd
        (b2j b x)
        { j2len := fun _ => 0, besti := st.besti, bestj := st.bestj, bestsize := st.bestsize }
        (fun j hj => mem_b2j hj) (by dsimp only; exact hb)
        (by intro j hj; dsimp only at hj; simp at hj)
      exact ih (r + 1) _ (by omega) (by omega) hres.2 hres.1

/-- The left extension loop preserves best-soundness. -/
theorem extendLeftGo_sound (a b : List α) (alo ahi blo bhi : Nat) :
    ∀ (fuel besti bestj bestsize : Nat),
      SoundBest a b alo ahi blo bhi (besti, bestj, bestsize) →
      SoundBest a b alo ahi blo bhi (extendLeftGo a b alo blo fuel besti bestj bestsize) := by
  intro fuel
  induction fuel with
  | zero =>
    intro besti bestj bestsize h
    exact h
  | succ fuel ih =>
    intro besti bestj bestsize h
    simp only [extendLeftGo]
    by_cases hg : alo < besti ∧ blo < bestj ∧ cellEq a b (besti - 1) (bestj - 1) = true
    · rw [if_pos hg]
      obtain ⟨hg1, hg2, hg3⟩ := hg
      apply ih
      have hbs : bestsize ≠ 0 := by
        intro h0
        have heq := h.1 h0
        rw [Prod.ext_iff] at heq
        have := heq.1
        dsimp at this
        omega
      obtain ⟨hb1, hb2, hb3, hb4, hrun⟩ := h.2 hbs
      dsimp only at hb1 hb2 hb3 hb4 hrun
      constructor
      · intro h0
        simp at h0
      · intro _
        dsimp only
        refine ⟨by omega, by omega, ?_, ?_, ?_⟩
        · have e : besti - 1 + (bestsize + 1) = besti + bestsize := by omega
          rw [e]
          exact hb3
        · have e : bestj - 1 + (bestsize + 1) = bestj + bestsize := by omega
          rw [e]
          exact hb4
        · apply matchRun_succ_left a b (besti - 1) (bestj - 1) bestsize hg3
          have e1 : besti - 1 + 1 = besti := by omega
          have e2 : bestj - 1 + 1 = bestj := by omega
          rw [e1, e2]
          exact hrun
    · rw [if_neg hg]
      exact h

/-- The right extension loop preserves best-soundness. -/
theorem extendRightGo_sound (a b : List α) (alo ahi blo bhi : Nat) :
    ∀ (fuel besti bestj bestsize : Nat),
      SoundBest a b alo ahi blo bhi (besti, bestj, bestsize) →
      SoundBest a b alo ahi blo bhi
        (besti, bestj, extendRightGo a b ahi bhi besti bestj fuel bestsize) := by
  intro fuel
  induction fuel with
  | zero =>
    intro besti bestj bestsize h
    exact h
  | succ fuel ih =>
    intro besti bestj bestsize h
    simp only [extendRightGo]
    by_cases hg : besti + bestsize < ahi ∧ bestj + bestsize < bhi ∧
        cellEq a b (besti + bestsize) (bestj + bestsize) = true
    · rw [if_pos hg]
      obtain ⟨hg1, hg2, hg3⟩ := hg
      apply ih
      have hpos : alo ≤ besti ∧ blo ≤ bestj := by
        by_cases h0 : bestsize = 0
        · have heq := h.1 h0
          rw [Prod.ext_iff] at heq
          have e1 := heq.1
          have e2 := heq.2
          rw [Prod.ext_iff] at e2
          dsimp at e1 e2
          omega
        · obtain ⟨hb1, hb2, _, _, _⟩ := h.2 h0
          dsimp only at hb1 hb2
          exact ⟨hb1, hb2⟩
      have hrun0 : matchRun a b besti bestj bestsize := by
        by_cases h0 : bestsize = 0
        · rw [h0]
          exact matchRun_zero a b besti bestj
        · exact (h.2 h0).2.2.2.2
      constructor
      · intro h0
        simp at h0
      · intro _
        dsimp only
        exact ⟨hpos.1, hpos.2, by omega, by omega,
          matchRun_succ_right a b besti bestj bestsize hrun0 hg3⟩
    · rw [if_neg hg]
      exact h

/-- Soundness of find_longest_match: its result is the degenerate
(alo, blo, 0) or a real common run inside the window. -/
theorem flm_sound (a b : List α) (alo ahi blo bhi : Nat) (h1 : alo ≤ ahi) :
    SoundBest a b alo ahi blo bhi (find_longest_match a b alo ahi blo bhi) := by
  simp only [find_longest_match, extendLeft, extendRight]
  have hst := flmRows_sound a b alo ahi blo bhi (ahi - alo) alo
    { j2len := fun _ => 0, besti := alo, bestj := blo, bestsize := 0 }
    (le_refl _) (by omega)
    (by intro j hj; simp at hj)
    (by constructor
        · intro _
          rfl
        · intro h0
          simp at h0)
  exact extendRightGo_sound a b alo ahi blo bhi _ _ _ _
    (extendLeftGo_sound a b alo ahi blo bhi _ _ _ _ hst)

/-- find_longest_match stays inside its window. -/
theorem flm_in_window (a b : List α) (alo ahi blo bhi : Nat) (h1 : alo ≤ ahi)
    (h2 : blo ≤ bhi) :
    alo ≤ (find_longest_match a b alo ahi blo bhi).1 ∧
    blo ≤ (find_longest_match a b alo ahi blo bhi).2.1 ∧
    (find_longest_match a b alo ahi blo bhi).1 +
      (find_longest_match a b alo ahi blo bhi).2.2 ≤ ahi ∧
    (find_longest_match a b alo ahi blo bhi).2.1 +
      (find_longest_match a b alo ahi blo bhi).2.2 ≤ bhi := by
  have h := flm_sound a b alo ahi blo bhi h1
  by_cases h0 : (find_longest_match a b alo ahi blo bhi).2.2 = 0
  · have heq := h.1 h0
    rw [heq]
    dsimp only
    exact ⟨le_refl _, le_refl _, by omega, by omega⟩
  · obtain ⟨g1, g2, g3, g4, _⟩ := h.2 h0
    exact ⟨g1, g2, g3, g4⟩

/-- The find_longest_match result is a real matching run. -/
theorem flm_matchRun (a b : List α) (alo ahi blo bhi : Nat) (h1 : alo ≤ ahi) :
    matchRun a b (find_longest_match a b alo ahi blo bhi).1
      (find_longest_match a b alo ahi blo bhi).2.1
      (find_longest_match a b alo ahi blo bhi).2.2 := by
  have h := flm_sound a b alo ahi blo bhi h1
  by_cases h0 : (find_longest_match a b alo ahi blo bhi).2.2 = 0
  · rw [h0]
    exact matchRun_zero a b _ _
  · exact (h.2 h0).2.2.2.2

/-- Bounds of every block produced by the recursive partition. -/
theorem matchingBlocksAux_bounds (a b : List α) :
    ∀ (fuel alo ahi blo bhi : Nat), alo ≤ ahi → blo ≤ bhi →
      ∀ blk ∈ matchingBlocksAux a b fuel alo ahi blo bhi,
        alo ≤ blk.1 ∧ blo ≤ blk.2.1 ∧ blk.1 + blk.2.2 ≤ ahi ∧ blk.2.1 + blk.2.2 ≤ bhi := by
  intro fuel
  induction fuel with
  | zero =>
    intro alo ahi blo bhi _ _ blk hblk
    simp [matchingBlocksAux] at hblk
  | succ fuel ih =>
    intro alo ahi blo bhi h1 h2 blk hblk
    simp only [matchingBlocksAux] at hblk
    by_cases h0 : (find_longest_match a b alo ahi blo bhi).2.2 = 0
    · rw [if_pos h0] at hblk
      simp at hblk
    · rw [if_neg h0] at hblk
      obtain ⟨w1, w2, w3, w4⟩ := flm_in_window a b alo ahi blo bhi h1 h2
      rcases List.mem_append.mp hblk with hL | hMR
      · have hm := ih alo (find_longest_match a b alo ahi blo bhi).1 blo
          (find_longest_match a b alo ahi blo bhi).2.1 (by omega) (by omega) blk hL
        exact ⟨hm.1, hm.2.1, by omega, by omega⟩
      · rcases List.mem_cons.mp hMR with heq | hR
        · subst heq
          dsimp only
          exact ⟨w1, w2, w3, w4⟩
        · have hm := ih ((find_longest_match a b alo ahi blo bhi).1 +
              (find_longest_match a b alo ahi blo bhi).2.2) ahi
            ((find_longest_match a b alo ahi blo bhi).2.1 +
              (find_longest_match a b alo ahi blo bhi).2.2) bhi
            (by omega) (by omega) blk hR
          exact ⟨by omega, by omega, hm.2.2.1, hm.2.2.2⟩

/-- GoodBlocks is antitone in the cursor. -/
theorem goodBlocks_mono (a b : List α) :
    ∀ (l : List Block) (ci cj ci' cj' : Nat), ci ≤ ci' → cj ≤ cj' →
      GoodBlocks a b ci' cj' l → GoodBlocks a b ci cj l := by
  intro l
  cases l with
  | nil =>
    intro ci cj ci' cj' _ _ _
    trivial
  | cons blk rest =>
    intro ci cj ci' cj' h1 h2 hg
    obtain ⟨g1, g2, g3, g4, g5, g6⟩ := hg
    exact ⟨by omega, by omega, g3, g4, g5, g6⟩

/-- The cursor only advances along a good block list. -/
theorem goodBlocks_cursor_le (a b : List α) :
    ∀ (l : List Block) (ci cj : Nat), GoodBlocks a b ci cj l →
      ci ≤ (cursorAfter l ci cj).1 ∧ cj ≤ (cursorAfter l ci cj).2 := by
  intro l
  induction l with
  | nil =>
    intro ci cj _
    exact ⟨le_refl _, le_refl _⟩
  | cons blk rest ih =>
    intro ci cj hg
    obtain ⟨g1, g2, _, _, _, g6⟩ := hg
    have hr := ih _ _ g6
    simp only [cursorAfter]
    exact ⟨by omega, by omega⟩

/-- Concatenate two good block lists when the second's cursor dominates
every end of the first. -/
theorem goodBlocks_append_le (a b : List α) :
    ∀ (l1 l2 : List Block) (ci cj di dj : Nat),
      GoodBlocks a b ci cj l1 → GoodBlocks a b di dj l2 →
      (∀ blk ∈ l1, blk.1 + blk.2.2 ≤ di ∧ blk.2.1 + blk.2.2 ≤ dj) →
      ci ≤ di → cj ≤ dj →
      GoodBlocks a b ci cj (l1 ++ l2) := by
  intro l1
  induction l1 with
  | nil =>
    intro l2 ci cj di dj _ h2 _ hci hcj
    simpa using goodBlocks_mono a b l2 ci cj di dj hci hcj h2
  | cons blk rest ih =>
    intro l2 ci cj di dj h1 h2 hb hci hcj
    obtain ⟨g1, g2, g3, g4, g5, g6⟩ := h1
    rw [List.cons_append]
    refine ⟨g1, g2, g3, g4, g5, ?_⟩
    exact ih l2 _ _ di dj g6 h2 (fun x hx => hb x (List.mem_cons_of_mem blk hx))
      (hb blk (List.mem_cons_self blk rest)).1 (hb blk (List.mem_cons_self blk rest)).2

/-- The recursive partition produces a good block list for the walk. -/
theorem matchingBlocksAux_good (a b : List α) :
    ∀ (fuel alo ahi blo bhi : Nat), alo ≤ ahi → blo ≤ bhi →
      ahi ≤ a.length → bhi ≤ b.length →
      GoodBlocks a b alo blo (matchingBlocksAux a b fuel alo ahi blo bhi) := by
  intro fuel
  induction fuel with
  | zero =>
    intro alo ahi blo bhi _ _ _ _
    trivial
  | succ fuel ih =>
    intro alo ahi blo bhi h1 h2 hA hB
    simp only [matchingBlocksAux]
    by_cases h0 : (find_longest_match a b alo ahi blo bhi).2.2 = 0
    · rw [if_pos h0]
      trivial
    · rw [if_neg h0]
      obtain ⟨w1, w2, w3, w4⟩ := flm_in_window a b alo ahi blo bhi h1 h2
      have hrun := flm_matchRun a b alo ahi blo bhi h1
      apply goodBlocks_append_le a b _ _ alo blo (find_longest_match a b alo ahi blo bhi).1
        (find_longest_match a b alo ahi blo bhi).2.1
      · exact ih alo (find_longest_match a b alo ahi blo bhi).1 blo
          (find_longest_match a b alo ahi blo bhi).2.1 (by omega) (by omega)
          (by omega) (by omega)
      · simp only [Prod.mk.eta]
        refine ⟨le_refl _, le_refl _, by omega, by omega, hrun, ?_⟩
        exact ih ((find_longest_match a b alo ahi blo bhi).1 +
            (find_longest_match a b alo ahi blo bhi).2.2) ahi
          ((find_longest_match a b alo ahi blo bhi).2.1 +
            (find_longest_match a b alo ahi blo bhi).2.2) bhi
          (by omega) (by omega) hA hB
      · intro blk hblk
        have hm := matchingBlocksAux_bounds a b fuel alo
          (find_longest_match a b alo ahi blo bhi).1 blo
          (find_longest_match a b alo ahi blo bhi).2.1 (by omega) (by omega) blk hblk
        exact ⟨hm.2.2.1, hm.2.2.2⟩
      · exact w1
      · exact w2

/-- The adjacency merge preserves goodness: the running group (i1, j1, k1)
may still merge with the head, so its start dominates the cursor and its
content is a real match whenever k1 is nonzero. -/
theorem mergeAdjAux_good (a b : List α) :
    ∀ (l : List Block) (i1 j1 k1 ci cj : Nat),
      ci ≤ i1 → cj ≤ j1 →
      (k1 ≠ 0 → i1 + k1 ≤ a.length ∧ j1 + k1 ≤ b.length ∧ matchRun a b i1 j1 k1) →
      GoodBlocks a b (i1 + k1) (j1 + k1) l →
      GoodBlocks a b ci cj (mergeAdjAux i1 j1 k1 l) := by
  intro l
  induction l with
  | nil =>
    intro i1 j1 k1 ci cj h1 h2 hk _
    simp only [mergeAdjAux]
    by_cases h0 : k1 ≠ 0
    · rw [if_pos h0]
      obtain ⟨b1, b2, b3⟩ := hk h0
      exact ⟨h1, h2, b1, b2, b3, trivial⟩
    · rw [if_neg h0]
      trivial
  | cons blk rest ih =>
    intro i1 j1 k1 ci cj h1 h2 hk hg
    obtain ⟨bi, bj, bk⟩ := blk
    obtain ⟨g1, g2, g3, g4, g5, g6⟩ := hg
    dsimp only at g1 g2 g3 g4 g5 g6
    simp only [mergeAdjAux]
    by_cases hadj : i1 + k1 = bi ∧ j1 + k1 = bj
    · rw [if_pos hadj]
      apply ih i1 j1 (k1 + bk) ci cj h1 h2
      · intro _
        refine ⟨by omega, by omega, ?_⟩
        by_cases h0 : k1 = 0
        · have ei : i1 = bi := by omega
          have ej : j1 = bj := by omega
          rw [h0, ei, ej]
          simpa using g5
        · have run1 := (hk h0).2.2
          have : matchRun a b (i1 + k1) (j1 + k1) bk := by
            rw [hadj.1, hadj.2]
            exact g5
          exact matchRun_concat a b i1 j1 k1 bk run1 this
      · have e1 : i1 + (k1 + bk) = bi + bk := by omega
        have e2 : j1 + (k1 + bk) = bj + bk := by omega
        rw [e1, e2]
        exact g6
    · rw [if_neg hadj]
      by_cases h0 : k1 ≠ 0
      · rw [if_pos h0]
        obtain ⟨b1, b2, b3⟩ := hk h0
        refine ⟨h1, h2, b1, b2, b3, ?_⟩
        exact ih bi bj bk (i1 + k1) (j1 + k1) g1 g2 (fun _ => ⟨g3, g4, g5⟩) g6
      · rw [if_neg h0]
        push_neg at h0
        apply ih bi bj bk ci cj (by omega) (by omega) (fun _ => ⟨g3, g4, g5⟩) g6

/-- Appending the terminating sentinel preserves goodness. -/
theorem goodBlocks_sentinel (a b : List α) :
    ∀ (l : List Block) (ci cj : Nat), ci ≤ a.length → cj ≤ b.length →
      GoodBlocks a b ci cj l →
      GoodBlocks a b ci cj (l ++ [(a.length, b.length, 0)]) := by
  intro l
  induction l with
  | nil =>
    intro ci cj h1 h2 _
    refine ⟨h1, h2, ?_, ?_, matchRun_zero a b _ _, trivial⟩
    · show a.length + 0 ≤ a.length
      omega
    · show b.length + 0 ≤ b.length
      omega
  | cons blk rest ih =>
    intro ci cj h1 h2 hg
    obtain ⟨g1, g2, g3, g4, g5, g6⟩ := hg
    exact ⟨g1, g2, g3, g4, g5, ih _ _ (by omega) (by omega) g6⟩

/-- The final matching-block list of SequenceMatcher is good for the walk
from the origin. -/
theorem get_matching_blocks_good (a b : List α) :
    GoodBlocks a b 0 0 (get_matching_blocks a b) := by
  unfold get_matching_blocks
  apply goodBlocks_sentinel a b _ 0 0 (by omega) (by omega)
  apply mergeAdjAux_good a b _ 0 0 0 0 0 (le_refl _) (le_refl _) (fun h => absurd rfl h)
  simpa using matchingBlocksAux_good a b (a.length + b.length) 0 a.length 0 b.length
    (by omega) (by omega) (le_refl _) (le_refl _)

end AlignSound

/-- Cursor after a list ending in a block. -/
theorem cursorAfter_last (l : List Block) :
    ∀ (x : Block) (ci cj : Nat),
      cursorAfter (l ++ [x]) ci cj = (x.1 + x.2.2, x.2.1 + x.2.2) := by
  induction l with
  | nil =>
    intro x ci cj
    rfl
  | cons blk rest ih =>
    intro x ci cj
    rw [List.cons_append]
    simp only [cursorAfter]
    exact ih x _ _

/-- Count bookkeeping of an equal opcode. -/
theorem classifyStep_equal_counts (refs hyps : List String) (acc : AlignResult)
    (ai bj sz : Nat) :
    (classifyStep refs hyps acc (Tag.equal, ai, ai + sz, bj, bj + sz)).hits.length =
      acc.hits.length + sz ∧
    (classifyStep refs hyps acc (Tag.equal, ai, ai + sz, bj, bj + sz)).substitutions =
      acc.substitutions ∧
    (classifyStep refs hyps acc (Tag.equal, ai, ai + sz, bj, bj + sz)).deletions =
      acc.deletions ∧
    (classifyStep refs hyps acc (Tag.equal, ai, ai + sz, bj, bj + sz)).insertions =
      acc.insertions := by
  refine ⟨?_, rfl, rfl, rfl⟩
  simp only [classifyStep, List.length_append, List.length_map, List.length_zip,
    List.length_range']
  have e : ai + sz - ai = sz := by omega
  have e2 : bj + sz - bj = sz := by omega
  rw [e, e2]
  simp

/-- Count bookkeeping of a delete opcode. -/
theorem classifyStep_delete_counts (refs hyps : List String) (acc : AlignResult)
    (i1 i2 j1 j2 : Nat) :
    (classifyStep refs hyps acc (Tag.delete, i1, i2, j1, j2)).hits = acc.hits ∧
    (classifyStep refs hyps acc (Tag.delete, i1, i2, j1, j2)).substitutions =
      acc.substitutions ∧
    (classifyStep refs hyps acc (Tag.delete, i1, i2, j1, j2)).deletions.length =
      acc.deletions.length + (i2 - i1) ∧
    (classifyStep refs hyps acc (Tag.delete, i1, i2, j1, j2)).insertions =
      acc.insertions := by
  refine ⟨rfl, rfl, ?_, rfl⟩
  simp [classifyStep]

/-- Count bookkeeping of an insert opcode. -/
theorem classifyStep_insert_counts (refs hyps : List String) (acc : AlignResult)
    (i1 i2 j1 j2 : Nat) :
    (classifyStep refs hyps acc (Tag.insert, i1, i2, j1, j2)).hits = acc.hits ∧
    (classifyStep refs hyps acc (Tag.insert, i1, i2, j1, j2)).substitutions =
      acc.substitutions ∧
    (classifyStep refs hyps acc (Tag.insert, i1, i2, j1, j2)).deletions =
      acc.deletions ∧
    (classifyStep refs hyps acc (Tag.insert, i1, i2, j1, j2)).insertions.length =
      acc.insertions.length + (j2 - j1) := by
  refine ⟨rfl, rfl, rfl, ?_⟩
  simp [classifyStep]

/-- Count bookkeeping of a replace opcode within bounds, for real tokens. -/
theorem classifyStep_replace_counts (refs hyps : List String)
    (hr : ∀ w ∈ refs, w ≠ "") (hh : ∀ w ∈ hyps, w ≠ "")
    (acc : AlignResult) (i1 i2 j1 j2 : Nat)
    (hiN : i2 ≤ refs.length) (hjM : j2 ≤ hyps.length) :
    (classifyStep refs hyps acc (Tag.replace, i1, i2, j1, j2)).hits = acc.hits ∧
    (classifyStep refs hyps acc (Tag.replace, i1, i2, j1, j2)).substitutions.length =
      acc.substitutions.length + min (i2 - i1) (j2 - j1) ∧
    (classifyStep refs hyps acc (Tag.replace, i1, i2, j1, j2)).deletions.length =
      acc.deletions.length + ((i2 - i1) - (j2 - j1)) ∧
    (classifyStep refs hyps acc (Tag.replace, i1, i2, j1, j2)).insertions.length =
      acc.insertions.length + ((j2 - j1) - (i2 - i1)) := by
  have hrs : ∀ w ∈ (refs.drop i1).take (i2 - i1), w ≠ "" :=
    fun w hw => hr w (List.drop_subset i1 refs (List.take_subset _ _ hw))
  have hhs : ∀ w ∈ (hyps.drop j1).take (j2 - j1), w ≠ "" :=
    fun w hw => hh w (List.drop_subset j1 hyps (List.take_subset _ _ hw))
  have hwalk := c3_replace_classification ((refs.drop i1).take (i2 - i1))
    ((hyps.drop j1).take (j2 - j1)) hrs hhs
  have lr : ((refs.drop i1).take (i2 - i1)).length = i2 - i1 := by
    rw [List.length_take, List.length_drop]
    omega
  have lh : ((hyps.drop j1).take (j2 - j1)).length = j2 - j1 := by
    rw [List.length_take, List.length_drop]
    omega
  refine ⟨rfl, ?_, ?_, ?_⟩
  · show (acc.substitutions ++ (replaceWalk _ _).1).length = _
    rw [hwalk, List.length_append, List.length_zip, lr, lh]
  · show (acc.deletions ++ (replaceWalk _ _).2.1).length = _
    rw [hwalk]
    simp only [List.length_append, List.length_drop, lr, lh]
  · show (acc.insertions ++ (replaceWalk _ _).2.2).length = _
    rw [hwalk]
    simp only [List.length_append, List.length_drop, lr, lh]

section AlignCount

/-- Token counting along the opcode walk: each classified opcode consumes
exactly the reference and hypothesis spans between the old and new cursor. -/
theorem walk_counts (refs hyps : List String)
    (hr : ∀ w ∈ refs, w ≠ "") (hh : ∀ w ∈ hyps, w ≠ "") :
    ∀ (l : List Block) (ci cj : Nat) (acc : AlignResult),
      GoodBlocks refs hyps ci cj l →
      ((opWalk l ci cj).foldl (classifyStep refs hyps) acc).hits.length +
        ((opWalk l ci cj).foldl (classifyStep refs hyps) acc).substitutions.length +
        ((opWalk l ci cj).foldl (classifyStep refs hyps) acc).deletions.length =
        acc.hits.length + acc.substitutions.length + acc.deletions.length +
          ((cursorAfter l ci cj).1 - ci) ∧
      ((opWalk l ci cj).foldl (classifyStep refs hyps) acc).hits.length +
        ((opWalk l ci cj).foldl (classifyStep refs hyps) acc).substitutions.length +
        ((opWalk l ci cj).foldl (classifyStep refs hyps) acc).insertions.length =
        acc.hits.length + acc.substitutions.length + acc.insertions.length +
          ((cursorAfter l ci cj).2 - cj) := by
  intro l
  induction l with
  | nil =>
    intro ci cj acc _
    simp [opWalk, cursorAfter]
  | cons blk rest ih =>
    intro ci cj acc hg
    obtain ⟨bi, bj, sz⟩ := blk
    obtain ⟨g1, g2, g3, g4, g5, g6⟩ := hg
    dsimp only at g1 g2 g3 g4 g5 g6
    simp only [opWalk, cursorAfter, List.foldl_append]
    have hcur := goodBlocks_cursor_le refs hyps rest (bi + sz) (bj + sz) g6
    set gap := (if ci < bi ∧ cj < bj then [(Tag.replace, ci, bi, cj, bj)]
      else if ci < bi then [(Tag.delete, ci, bi, cj, bj)]
      else if cj < bj then [(Tag.insert, ci, bi, cj, bj)]
      else ([] : List Opcode)) with hgap
    set eqops := (if sz ≠ 0 then [(Tag.equal, bi, bi + sz, bj, bj + sz)]
      else ([] : List Opcode)) with heqops
    have hacc1 : ∀ acc0 : AlignResult,
        (gap.foldl (classifyStep refs hyps) acc0).hits.length +
          (gap.foldl (classifyStep refs hyps) acc0).substitutions.length +
          (gap.foldl (classifyStep refs hyps) acc0).deletions.length =
          acc0.hits.length + acc0.substitutions.length + acc0.deletions.length +
            (bi - ci) ∧
        (gap.foldl (classifyStep refs hyps) acc0).hits.length +
          (gap.foldl (classifyStep refs hyps) acc0).substitutions.length +
          (gap.foldl (classifyStep refs hyps) acc0).insertions.length =
          acc0.hits.length + acc0.substitutions.length + acc0.insertions.length +
            (bj - cj) := by
      intro acc0
      rw [hgap]
      by_cases hc1 : ci < bi ∧ cj < bj
      · rw [if_pos hc1]
        simp only [List.foldl_cons, List.foldl_nil]
        obtain ⟨e1, e2, e3, e4⟩ := classifyStep_replace_counts refs hyps hr hh acc0
          ci bi cj bj (by omega) (by omega)
        rw [e1, e2, e3, e4]
        omega
      · rw [if_neg hc1]
        by_cases hc2 : ci < bi
        · rw [if_pos hc2]
          simp only [List.foldl_cons, List.foldl_nil]
          obtain ⟨e1, e2, e3, e4⟩ := classifyStep_delete_counts refs hyps acc0 ci bi cj bj
          rw [e1, e2, e3, e4]
          have : bj = cj := by omega
          omega
        · rw [if_neg hc2]
          by_cases hc3 : cj < bj
          · rw [if_pos hc3]
            simp only [List.foldl_cons, List.foldl_nil]
            obtain ⟨e1, e2, e3, e4⟩ := classifyStep_insert_counts refs hyps acc0 ci bi cj bj
            rw [e1, e2, e3, e4]
            omega
          · rw [if_neg hc3]
            simp only [List.foldl_nil]
            omega
    have hacc2 : ∀ acc0 : AlignResult,
        (eqops.foldl (classifyStep refs hyps) acc0).hits.length =
          acc0.hits.length + sz ∧
        (eqops.foldl (classifyStep refs hyps) acc0).substitutions =
          acc0.substitutions ∧
        (eqops.foldl (classifyStep refs hyps) acc0).deletions = acc0.deletions ∧
        (eqops.foldl (classifyStep refs hyps) acc0).insertions = acc0.insertions := by
      intro acc0
      rw [heqops]
      by_cases hs : sz ≠ 0
      · rw [if_pos hs]
        simp only [List.foldl_cons, List.foldl_nil]
        exact classifyStep_equal_counts refs hyps acc0 bi bj sz
      · rw [if_neg hs]
        simp only [List.foldl_nil]
        push_neg at hs
        exact ⟨by omega, trivial, trivial, trivial⟩
    obtain ⟨ha1, ha2⟩ := hacc1 acc
    obtain ⟨hb1, hb2, hb3, hb4⟩ :=
      hacc2 (gap.foldl (classifyStep refs hyps) acc)
    obtain ⟨hi1, hi2⟩ := ih (bi + sz) (bj + sz)
      (eqops.foldl (classifyStep refs hyps) (gap.foldl (classifyStep refs hyps) acc)) g6
    constructor
    · rw [hi1, hb1, hb2, hb3]
      omega
    · rw [hi2, hb1, hb2, hb4]
      omega

/-- Along the walk, every collected hit pair repeats the same token. -/
theorem walk_hits_equal (refs hyps : List String) :
    ∀ (l : List Block) (ci cj : Nat) (acc : AlignResult),
      GoodBlocks refs hyps ci cj l →
      (∀ p ∈ acc.hits, p.1 = p.2) →
      ∀ p ∈ ((opWalk l ci cj).foldl (classifyStep refs hyps) acc).hits, p.1 = p.2 := by
  intro l
  induction l with
  | nil =>
    intro ci cj acc _ hacc p hp
    exact hacc p hp
  | cons blk rest ih =>
    intro ci cj acc hg hacc p hp
    obtain ⟨bi, bj, sz⟩ := blk
    obtain ⟨g1, g2, g3, g4, g5, g6⟩ := hg
    dsimp only at g1 g2 g3 g4 g5 g6
    simp only [opWalk, List.foldl_append] at hp
    refine ih (bi + sz) (bj + sz) _ g6 ?_ p hp
    intro q hq
    have hgaph : ((if ci < bi ∧ cj < bj then [(Tag.replace, ci, bi, cj, bj)]
        else if ci < bi then [(Tag.delete, ci, bi, cj, bj)]
        else if cj < bj then [(Tag.insert, ci, bi, cj, bj)]
        else ([] : List Opcode)).foldl (classifyStep refs hyps) acc).hits = acc.hits := by
      by_cases hc1 : ci < bi ∧ cj < bj
      · rw [if_pos hc1]
        rfl
      · rw [if_neg hc1]
        by_cases hc2 : ci < bi
        · rw [if_pos hc2]
          rfl
        · rw [if_neg hc2]
          by_cases hc3 : cj < bj
          · rw [if_pos hc3]
            rfl
          · rw [if_neg hc3]
            rfl
    by_cases hs : sz ≠ 0
    · rw [if_pos hs] at hq
      simp only [List.foldl_cons, List.foldl_nil, classifyStep] at hq
      rw [hgaph] at hq
      rcases List.mem_append.mp hq with hq1 | hq2
      · exact hacc q hq1
      · rcases List.mem_map.mp hq2 with ⟨c, hc, rfl⟩
        rcases List.mem_iff_getElem.mp hc with ⟨t, ht, hct⟩
        have hlen : t < sz := by
          rw [List.length_zip, List.length_range', List.length_range'] at ht
          omega
        have hc1 : c.1 = bi + t := by
          rw [← hct, List.getElem_zip]
          dsimp only
          rw [List.getElem_range']
          omega
        have hc2 : c.2 = bj + t := by
          rw [← hct, List.getElem_zip]
          dsimp only
          rw [List.getElem_range']
          omega
        have hcell := g5 t hlen
        rcases (cellEq_iff refs hyps _ _).mp hcell with ⟨x, hx1, hx2⟩
        dsimp only
        rw [hc1, hc2, List.getD_eq_getElem?_getD, List.getD_eq_getElem?_getD]
        rw [List.get?_eq_getElem?] at hx1 hx2
        rw [hx1, hx2]
    · rw [if_neg hs] at hq
      simp only [List.foldl_nil] at hq
      rw [hgaph] at hq
      exact hacc q hq

/-- C1: for every pair of token sequences, every reference token and every
hypothesis token is classified exactly once:
hits + substitutions + deletions = len(reference) and
hits + substitutions + insertions = len(hypothesis). Stated for sequences
of real tokens (nonempty strings, as tokenization produces; Python
truthiness drops an empty-string token in the replace walk, so an empty
pseudo-token would not be counted). -/
theorem c1_token_conservation (refs hyps : List String)
    (hr : ∀ w ∈ refs, w ≠ "") (hh : ∀ w ∈ hyps, w ≠ "") :
    (align_sequences refs hyps).hits.length +
      (align_sequences refs hyps).substitutions.length +
      (align_sequences refs hyps).deletions.length = refs.length ∧
    (align_sequences refs hyps).hits.length +
      (align_sequences refs hyps).substitutions.length +
      (align_sequences refs hyps).insertions.length = hyps.length := by
  have hc := walk_counts refs hyps hr hh (get_matching_blocks refs hyps) 0 0
    { hits := [], substitutions := [], insertions := [], deletions := [] }
    (get_matching_blocks_good refs hyps)
  have hcur : cursorAfter (get_matching_blocks refs hyps) 0 0 =
      (refs.length, hyps.length) := by
    unfold get_matching_blocks
    rw [cursorAfter_last]
    simp
  rw [hcur] at hc
  obtain ⟨h1, h2⟩ := hc
  dsimp only at h1 h2
  simp only [List.length_nil] at h1 h2
  unfold align_sequences get_opcodes
  constructor
  · rw [h1]
    omega
  · rw [h2]
    omega

/-- Witness for c1_token_conservation at a concrete input: 2 hits,
1 insertion. -/
theorem c1_token_conservation_witness :
    (align_sequences ["the", "cat"] ["the", "dog", "cat"]).hits.length +
      (align_sequences ["the", "cat"] ["the", "dog", "cat"]).substitutions.length +
      (align_sequences ["the", "cat"] ["the", "dog", "cat"]).deletions.length = 2 ∧
    (align_sequences ["the", "cat"] ["the", "dog", "cat"]).hits.length +
      (align_sequences ["the", "cat"] ["the", "dog", "cat"]).substitutions.length +
      (align_sequences ["the", "cat"] ["the", "dog", "cat"]).insertions.length = 3 :=
  c1_token_conservation ["the", "cat"] ["the", "dog", "cat"] (by decide) (by decide)

/-- C9: for every pair of token sequences, every pair collected in the hits
list of align_sequences repeats one token: the hypothesis side equals the
reference side. -/
theorem c9_hits_identical (refs hyps : List String) :
    ∀ p ∈ (align_sequences refs hyps).hits, p.1 = p.2 := by
  intro p hp
  unfold align_sequences get_opcodes at hp
  exact walk_hits_equal refs hyps (get_matching_blocks refs hyps) 0 0 _
    (get_matching_blocks_good refs hyps) (fun q hq => absurd hq (List.not_mem_nil q)) p hp

/-- Witness for c9_hits_identical at a concrete aligned pair. -/
theorem c9_hits_identical_witness : (("cat", "cat") : String × String).1 = ("cat", "cat").2 :=
  c9_hits_identical ["cat"] ["cat"] ("cat", "cat") (by decide)

end AlignCount

section Exactness

variable {α : Type} [DecidableEq α]

/-- Fuel irrelevance for runEndGo. -/
theorem runEndGo_congr (a b : List α) (alo blo : Nat) :
    ∀ (f g i j : Nat), i < f → i < g →
      runEndGo a b alo blo f i j = runEndGo a b alo blo g i j := by
  intro f
  induction f with
  | zero =>
    intro g i j hf _
    omega
  | succ f ih =>
    intro g i j hf hg
    cases g with
    | zero => omega
    | succ g =>
      simp only [runEndGo]
      by_cases h1 : alo ≤ i ∧ blo ≤ j ∧ cellEq a b i j = true
      · rw [if_pos h1, if_pos h1]
        by_cases h2 : alo < i ∧ blo < j
        · rw [if_pos h2, if_pos h2, ih g (i - 1) (j - 1) (by omega) (by omega)]
        · rw [if_neg h2, if_neg h2]
      · rw [if_neg h1, if_neg h1]

/-- Recursion equation of runEnd. -/
theorem runEnd_eq (a b : List α) (alo blo i j : Nat) :
    runEnd a b alo blo i j =
      if alo ≤ i ∧ blo ≤ j ∧ cellEq a b i j = true then
        (if alo < i ∧ blo < j then runEnd a b alo blo (i - 1) (j - 1) else 0) + 1
      else 0 := by
  show runEndGo a b alo blo (i + 1) i j = _
  simp only [runEndGo]
  by_cases h1 : alo ≤ i ∧ blo ≤ j ∧ cellEq a b i j = true
  · rw [if_pos h1, if_pos h1]
    by_cases h2 : alo < i ∧ blo < j
    · rw [if_pos h2, if_pos h2,
        runEndGo_congr a b alo blo i (i - 1 + 1) (i - 1) (j - 1) (by omega) (by omega)]
      rfl
    · rw [if_neg h2, if_neg h2]
  · rw [if_neg h1, if_neg h1]

/-- Soundness of runEnd: a nonzero value is the length of a real backward
run ending at (i, j) and starting at or after (alo, blo). -/
theorem runEnd_sound (a b : List α) (alo blo : Nat) :
    ∀ (i j : Nat), runEnd a b alo blo i j ≠ 0 →
      alo ≤ i ∧ blo ≤ j ∧
      runEnd a b alo blo i j ≤ i + 1 ∧ runEnd a b alo blo i j ≤ j + 1 ∧
      alo ≤ i + 1 - runEnd a b alo blo i j ∧ blo ≤ j + 1 - runEnd a b alo blo i j ∧
      matchRun a b (i + 1 - runEnd a b alo blo i j) (j + 1 - runEnd a b alo blo i j)
        (runEnd a b alo blo i j) := by
  intro i
  induction i using Nat.strong_induction_on with
  | _ i ih =>
    intro j hne
    rw [runEnd_eq] at hne ⊢
    by_cases h1 : alo ≤ i ∧ blo ≤ j ∧ cellEq a b i j = true
    · rw [if_pos h1] at hne ⊢
      obtain ⟨ha, hb2, hcell⟩ := h1
      by_cases h2 : alo < i ∧ blo < j
      · rw [if_pos h2] at hne ⊢
        by_cases h0 : runEnd a b alo blo (i - 1) (j - 1) = 0
        · rw [h0]
          have e1 : i + 1 - (0 + 1) = i := by omega
          have e2 : j + 1 - (0 + 1) = j := by omega
          rw [e1, e2]
          exact ⟨ha, hb2, by omega, by omega, by omega, by omega, matchRun_one a b i j hcell⟩
        · obtain ⟨p1, p2, p3, p4, p5, p6, prun⟩ := ih (i - 1) (by omega) (j - 1) h0
          set m := runEnd a b alo blo (i - 1) (j - 1) with hm
          have e1 : i - 1 + 1 = i := by omega
          have e2 : j - 1 + 1 = j := by omega
          rw [e1] at p3 p5
          rw [e2] at p4 p6
          have erun : matchRun a b (i - m) (j - m) (m + 1) := by
            have eb1 : i - 1 + 1 - m = i - m := by omega
            have eb2 : j - 1 + 1 - m = j - m := by omega
            rw [eb1, eb2] at prun
            apply matchRun_succ_right a b (i - m) (j - m) m prun
            have ec1 : i - m + m = i := by omega
            have ec2 : j - m + m = j := by omega
            rw [ec1, ec2]
            exact hcell
          have e3 : i + 1 - (m + 1) = i - m := by omega
          have e4 : j + 1 - (m + 1) = j - m := by omega
          rw [e3, e4]
          exact ⟨ha, hb2, by omega, by omega, by omega, by omega, erun⟩
      · rw [if_neg h2] at hne ⊢
        have e1 : i + 1 - (0 + 1) = i := by omega
        have e2 : j + 1 - (0 + 1) = j := by omega
        rw [e1, e2]
        exact ⟨ha, hb2, by omega, by omega, by omega, by omega, matchRun_one a b i j hcell⟩
    · rw [if_neg h1] at hne
      omega

/-- Completeness of runEnd: the run ending at the last cell of any real
window run is at least that long. -/
theorem runEnd_complete (a b : List α) (alo blo : Nat) :
    ∀ (k i0 j0 : Nat), alo ≤ i0 → blo ≤ j0 → matchRun a b i0 j0 k → 0 < k →
      k ≤ runEnd a b alo blo (i0 + (k - 1)) (j0 + (k - 1)) := by
  intro k
  induction k with
  | zero =>
    intro i0 j0 _ _ _ h0
    omega
  | succ k ih =>
    intro i0 j0 ha hb2 hrun _
    cases k with
    | zero =>
      have hcell : cellEq a b i0 j0 = true := by
        simpa using hrun 0 (by omega)
      have e1 : i0 + (0 + 1 - 1) = i0 := by omega
      have e2 : j0 + (0 + 1 - 1) = j0 := by omega
      rw [e1, e2, runEnd_eq, if_pos ⟨ha, hb2, hcell⟩]
      omega
    | succ k =>
      have hsub : matchRun a b i0 j0 (k + 1) := matchRun_mono a b i0 j0 (by omega) hrun
      have hih := ih i0 j0 ha hb2 hsub (by omega)
      have hcell : cellEq a b (i0 + (k + 1)) (j0 + (k + 1)) = true :=
        hrun (k + 1) (by omega)
      rw [runEnd_eq]
      have e : k + 1 + 1 - 1 = k + 1 := by omega
      rw [e]
      rw [if_pos ⟨by omega, by omega, hcell⟩, if_pos ⟨by omega, by omega⟩]
      have e1 : i0 + (k + 1) - 1 = i0 + (k + 1 - 1) := by omega
      have e2 : j0 + (k + 1) - 1 = j0 + (k + 1 - 1) := by omega
      rw [e1, e2]
      omega

/-- Fuel irrelevance for runFwdGo. -/
theorem runFwdGo_congr (a b : List α) (ahi bhi : Nat) :
    ∀ (f g i j : Nat), ahi - i ≤ f → ahi - i ≤ g →
      runFwdGo a b ahi bhi f i j = runFwdGo a b ahi bhi g i j := by
  intro f
  induction f with
  | zero =>
    intro g i j hf _
    have hi : ahi ≤ i := by omega
    cases g with
    | zero => rfl
    | succ g =>
      simp only [runFwdGo]
      rw [if_neg (by omega)]
  | succ f ih =>
    intro g i j hf hg
    cases g with
    | zero =>
      have hi : ahi ≤ i := by omega
      simp only [runFwdGo]
      rw [if_neg (by omega)]
    | succ g =>
      simp only [runFwdGo]
      by_cases h1 : i < ahi ∧ j < bhi ∧ cellEq a b i j = true
      · rw [if_pos h1, if_pos h1, ih g (i + 1) (j + 1) (by omega) (by omega)]
      · rw [if_neg h1, if_neg h1]

/-- Recursion equation of runFwd. -/
theorem runFwd_eq (a b : List α) (ahi bhi i j : Nat) :
    runFwd a b ahi bhi i j =
      if i < ahi ∧ j < bhi ∧ cellEq a b i j = true then
        runFwd a b ahi bhi (i + 1) (j + 1) + 1
      else 0 := by
  show runFwdGo a b ahi bhi (ahi - i) i j = _
  by_cases h1 : i < ahi ∧ j < bhi ∧ cellEq a b i j = true
  · have hf : ahi - i = (ahi - i - 1) + 1 := by omega
    rw [if_pos h1, hf]
    simp only [runFwdGo]
    rw [if_pos h1,
      runFwdGo_congr a b ahi bhi (ahi - i - 1) (ahi - (i + 1)) (i + 1) (j + 1)
        (by omega) (by omega)]
    rfl
  · rw [if_neg h1,
      runFwdGo_congr a b ahi bhi (ahi - i) (ahi - i + 1) i j (by omega) (by omega)]
    simp only [runFwdGo]
    rw [if_neg h1]

/-- A stretch of a matching run is again a matching run, shifted. -/
theorem matchRun_tail (a b : List α) (i j k : Nat) (h : matchRun a b i j (k + 1)) :
    matchRun a b (i + 1) (j + 1) k := by
  intro t ht
  have e1 : i + 1 + t = i + (t + 1) := by omega
  have e2 : j + 1 + t = j + (t + 1) := by omega
  rw [e1, e2]
  exact h (t + 1) (by omega)

/-- Soundness of runFwd: the value is the length of a real run starting at
(i, j), and a nonzero value keeps the run inside the window. -/
theorem runFwd_sound (a b : List α) (ahi bhi : Nat) :
    ∀ (i j : Nat), matchRun a b i j (runFwd a b ahi bhi i j) ∧
      (runFwd a b ahi bhi i j ≠ 0 →
        i + runFwd a b ahi bhi i j ≤ ahi ∧ j + runFwd a b ahi bhi i j ≤ bhi) := by
  have key : ∀ (n i j : Nat), ahi - i ≤ n →
      matchRun a b i j (runFwd a b ahi bhi i j) ∧
      (runFwd a b ahi bhi i j ≠ 0 →
        i + runFwd a b ahi bhi i j ≤ ahi ∧ j + runFwd a b ahi bhi i j ≤ bhi) := by
    intro n
    induction n with
    | zero =>
      intro i j hn
      rw [runFwd_eq]
      rw [if_neg (by omega)]
      exact ⟨matchRun_zero a b i j, by omega⟩
    | succ n ih =>
      intro i j hn
      rw [runFwd_eq]
      by_cases h1 : i < ahi ∧ j < bhi ∧ cellEq a b i j = true
      · rw [if_pos h1]
        obtain ⟨hia, hjb, hc⟩ := h1
        obtain ⟨ihrun, ihbnd⟩ := ih (i + 1) (j + 1) (by omega)
        refine ⟨matchRun_succ_left a b i j _ hc ihrun, fun _ => ?_⟩
        by_cases h0 : runFwd a b ahi bhi (i + 1) (j + 1) = 0
        · rw [h0]
          omega
        · have := ihbnd h0
          omega
      · rw [if_neg h1]
        exact ⟨matchRun_zero a b i j, by omega⟩
  intro i j
  exact key (ahi - i) i j (by omega)

/-- Completeness of runFwd: any window-contained run starting at (i, j) is
no longer than runFwd. -/
theorem runFwd_ge (a b : List α) (ahi bhi : Nat) :
    ∀ (k i j : Nat), matchRun a b i j k → i + k ≤ ahi → j + k ≤ bhi →
      k ≤ runFwd a b ahi bhi i j := by
  intro k
  induction k with
  | zero =>
    intro i j _ _ _
    omega
  | succ k ih =>
    intro i j hrun hia hjb
    have hc : cellEq a b i j = true := by simpa using hrun 0 (by omega)
    rw [runFwd_eq, if_pos ⟨by omega, by omega, hc⟩]
    have := ih (i + 1) (j + 1) (matchRun_tail a b i j k hrun) (by omega) (by omega)
    omega

/-- Membership in the generic row-major fold underlying cellsOf. -/
theorem mem_cellsOf_foldr (blo m : Nat) :
    ∀ (l : List Nat) (c : Nat × Nat),
      (c ∈ l.foldr
        (fun i acc => (List.range' blo m).map (fun j => (i, j)) ++ acc) []) ↔
      c.1 ∈ l ∧ c.2 ∈ List.range' blo m := by
  intro l
  induction l with
  | nil =>
    intro c
    simp
  | cons i l ih =>
    intro c
    simp only [List.foldr_cons, List.mem_append, List.mem_map, List.mem_cons, ih]
    constructor
    · rintro (⟨j, hj, rfl⟩ | ⟨h1, h2⟩)
      · exact ⟨Or.inl rfl, hj⟩
      · exact ⟨Or.inr h1, h2⟩
    · rintro ⟨h1 | h1, h2⟩
      · left
        refine ⟨c.2, h2, ?_⟩
        rw [← h1]
      · right
        exact ⟨h1, h2⟩

/-- A cell is scanned exactly when it lies in the window. -/
theorem mem_cellsOf (alo ahi blo bhi : Nat) (c : Nat × Nat) :
    c ∈ cellsOf alo ahi blo bhi ↔
      alo ≤ c.1 ∧ c.1 < ahi ∧ blo ≤ c.2 ∧ c.2 < bhi := by
  unfold cellsOf
  rw [mem_cellsOf_foldr, List.mem_range'_1, List.mem_range'_1]
  constructor
  · rintro ⟨⟨h1, h2⟩, h3, h4⟩
    exact ⟨h1, by omega, h3, by omega⟩
  · rintro ⟨h1, h2, h3, h4⟩
    exact ⟨⟨h1, by omega⟩, h3, by omega⟩

/-- The generic fold scans cells in strictly increasing lexicographic
order when the outer row list is strictly increasing. -/
theorem cellsOf_foldr_pairwise (blo m : Nat) :
    ∀ (l : List Nat), l.Pairwise (· < ·) →
      (l.foldr
        (fun i acc => (List.range' blo m).map (fun j => (i, j)) ++ acc)
        []).Pairwise lexLt := by
  intro l
  induction l with
  | nil =>
    intro _
    simp
  | cons i l ih =>
    intro hpw
    rw [List.pairwise_cons] at hpw
    obtain ⟨hi, hl⟩ := hpw
    simp only [List.foldr_cons]
    rw [List.pairwise_append]
    refine ⟨?_, ih hl, ?_⟩
    · exact List.Pairwise.map _ (fun j j' h => Or.inr ⟨rfl, h⟩)
        (List.pairwise_lt_range' blo m)
    · intro p hp q hq
      obtain ⟨j, hj, rfl⟩ := List.mem_map.mp hp
      have hq' := (mem_cellsOf_foldr blo m l q).mp hq
      exact Or.inl (hi q.1 hq'.1)

/-- cellsOf scans the window in strictly increasing lexicographic order. -/
theorem cellsOf_pairwise (alo ahi blo bhi : Nat) :
    (cellsOf alo ahi blo bhi).Pairwise lexLt :=
  cellsOf_foldr_pairwise blo (bhi - blo) _ (List.pairwise_lt_range' alo (ahi - alo))

/-- The champion scan preserves the champion invariant across any
lexicographically sorted cell list that dominates the seen cells. -/
theorem champScan_inv (value : Nat × Nat → Nat) (alo blo : Nat) :
    ∀ (L seen : List (Nat × Nat)) (st : Nat × Nat × Nat),
      L.Pairwise lexLt →
      (∀ c ∈ seen, ∀ c' ∈ L, lexLt c c') →
      ChampInv value alo blo seen st →
      ChampInv value alo blo (seen ++ L)
        (champScan value (fun c _ => c) L st) := by
  intro L
  induction L with
  | nil =>
    intro seen st _ _ hinv
    simpa using hinv
  | cons c cs ih =>
    intro seen st hpw hcross hinv
    rw [List.pairwise_cons] at hpw
    obtain ⟨hcfirst, hcs⟩ := hpw
    obtain ⟨hbnd, hzero, hnz⟩ := hinv
    have step : ChampInv value alo blo (seen ++ [c])
        (if st.2.2 < value c then (c.1, c.2, value c) else st) := by
      by_cases hlt : st.2.2 < value c
      · rw [if_pos hlt]
        refine ⟨?_, ?_, ?_⟩
        · intro x hx
          rcases List.mem_append.mp hx with h | h
          · have := hbnd x h
            dsimp only
            omega
          · have hxc : x = c := by simpa using h
            subst hxc
            dsimp only
            omega
        · intro h0
          dsimp only at h0
          exfalso
          omega
        · intro _
          refine ⟨c, List.mem_append.mpr (Or.inr (by simp)), rfl, Prod.mk.eta, ?_⟩
          intro c' hc' hv
          rcases List.mem_append.mp hc' with h | h
          · have := hbnd c' h
            dsimp only at hv
            exfalso
            omega
          · have hcc : c' = c := by simpa using h
            exact Or.inl hcc.symm
      · rw [if_neg hlt]
        refine ⟨?_, hzero, ?_⟩
        · intro x hx
          rcases List.mem_append.mp hx with h | h
          · exact hbnd x h
          · have hxc : x = c := by simpa using h
            subst hxc
            omega
        · intro h0
          obtain ⟨c0, hc0, hv0, hpos0, hmin0⟩ := hnz h0
          refine ⟨c0, List.mem_append.mpr (Or.inl hc0), hv0, hpos0, ?_⟩
          intro c' hc' hv
          rcases List.mem_append.mp hc' with h | h
          · exact hmin0 c' h hv
          · have hcc : c' = c := by simpa using h
            subst hcc
            exact Or.inr (hcross c0 hc0 c' (by simp))
    have hcross' : ∀ x ∈ seen ++ [c], ∀ c' ∈ cs, lexLt x c' := by
      intro x hx c' hc'
      rcases List.mem_append.mp hx with h | h
      · exact hcross x h c' (by simp [hc'])
      · have hxc : x = c := by simpa using h
        subst hxc
        exact hcfirst c' hc'
    have h2 := ih (seen ++ [c]) _ hcs hcross' step
    rw [List.append_assoc] at h2
    simpa using h2

/-- specLongestMatch satisfies the spec's best-match characterization:
maximal length, lexicographically first start, degenerate when no common
cell exists. -/
theorem specLongestMatch_isBest (a b : List α) (alo ahi blo bhi : Nat) :
    IsBestMatch a b alo ahi blo bhi (specLongestMatch a b alo ahi blo bhi) := by
  have hinv0 : ChampInv (fun c => runFwd a b ahi bhi c.1 c.2) alo blo [] (alo, blo, 0) :=
    ⟨by simp, fun _ => rfl, fun h0 => absurd rfl h0⟩
  have hinv := champScan_inv (fun c => runFwd a b ahi bhi c.1 c.2) alo blo
    (cellsOf alo ahi blo bhi) [] (alo, blo, 0) (cellsOf_pairwise alo ahi blo bhi)
    (by intro c hc; simp at hc) hinv0
  rw [List.nil_append] at hinv
  have hfold : champScan (fun c => runFwd a b ahi bhi c.1 c.2) (fun c _ => c)
      (cellsOf alo ahi blo bhi) (alo, blo, 0) = specLongestMatch a b alo ahi blo bhi := rfl
  rw [hfold] at hinv
  obtain ⟨hbnd, hzero, hnz⟩ := hinv
  simp only at hbnd hnz
  refine ⟨?_, hzero, ?_⟩
  · intro i j k hi hj hik hjk hrun
    by_cases hk0 : k = 0
    · omega
    · have hmem : (i, j) ∈ cellsOf alo ahi blo bhi :=
        (mem_cellsOf alo ahi blo bhi (i, j)).mpr ⟨hi, by omega, hj, by omega⟩
      have h1 := runFwd_ge a b ahi bhi k i j hrun hik hjk
      have h2 := hbnd (i, j) hmem
      exact le_trans h1 h2
  · intro h0
    obtain ⟨c, hcmem, hcv, hcpos, hcmin⟩ := hnz h0
    obtain ⟨hc1, hc2, hc3, hc4⟩ := (mem_cellsOf alo ahi blo bhi c).mp hcmem
    obtain ⟨hrunc, hbndc⟩ := runFwd_sound a b ahi bhi c.1 c.2
    rw [hcv] at hrunc hbndc
    have e1 : (specLongestMatch a b alo ahi blo bhi).1 = c.1 :=
      congrArg Prod.fst hcpos
    have e2 : (specLongestMatch a b alo ahi blo bhi).2.1 = c.2 :=
      congrArg Prod.snd hcpos
    obtain ⟨hca, hcb⟩ := hbndc h0
    rw [e1, e2]
    refine ⟨hc1, hc3, hca, hcb, hrunc, ?_⟩
    intro i j hi hj hik hjk hrun
    have hmem : (i, j) ∈ cellsOf alo ahi blo bhi :=
      (mem_cellsOf alo ahi blo bhi (i, j)).mpr ⟨hi, by omega, hj, by omega⟩
    have hge := runFwd_ge a b ahi bhi _ i j hrun hik hjk
    have hle := hbnd (i, j) hmem
    dsimp only at hle
    have heq : runFwd a b ahi bhi i j = (specLongestMatch a b alo ahi blo bhi).2.2 := by
      omega
    rcases hcmin (i, j) hmem heq with h | h
    · left
      rw [← h]
    · right
      rw [show ((c.1, c.2) : Nat × Nat) = c from Prod.mk.eta]
      exact h

/-- ExactBest transfers across pointwise equivalent scanned-cell sets. -/
theorem exactBest_congr (a b : List α) (alo blo : Nat) {D D' : Nat × Nat → Prop}
    (h : ∀ c, D c ↔ D' c) {t : Nat × Nat × Nat}
    (he : ExactBest a b alo blo D t) : ExactBest a b alo blo D' t := by
  obtain ⟨h1, h2, h3⟩ := he
  refine ⟨fun c hc => h1 c ((h c).mpr hc), h2, fun h0 => ?_⟩
  obtain ⟨c, hc, hv, hp, hm⟩ := h3 h0
  exact ⟨c, (h c).mp hc, hv, hp, fun c' hc' hv' => hm c' ((h c').mpr hc') hv'⟩

/-- Membership in the stored index lists. -/
theorem mem_indicesOf (b : List α) (x : α) (j : Nat) :
    j ∈ indicesOf b x ↔ b.get? j = some x := by
  unfold indicesOf
  rw [List.mem_filter, List.mem_range]
  constructor
  · rintro ⟨_, h⟩
    exact of_decide_eq_true h
  · intro h
    refine ⟨?_, decide_eq_true h⟩
    by_contra hlt
    rw [List.get?_eq_none.mpr (by omega)] at h
    exact Option.noConfusion h

/-- The stored index lists are ascending. -/
theorem indicesOf_pairwise (b : List α) (x : α) :
    (indicesOf b x).Pairwise (· < ·) :=
  (List.pairwise_lt_range b.length).sublist (List.filter_sublist _)

/-- b2j lists are ascending whether or not the token was purged. -/
theorem b2j_pairwise (b : List α) (x : α) : (b2j b x).Pairwise (· < ·) := by
  unfold b2j
  split
  · exact List.Pairwise.nil
  · exact indicesOf_pairwise b x

/-- Without popular tokens the purge is empty and b2j is the full index
list. -/
theorem mem_b2j_iff (b : List α) (hnp : ∀ y, isPopular b y = false) (x : α) (j : Nat) :
    j ∈ b2j b x ↔ b.get? j = some x := by
  simp [b2j, hnp x, mem_indicesOf]

/-- The inner DP loop stores the exact backward run length of every
processed cell of row i and maintains the exact champion over the scanned
cells. Pd is the set of row-i columns already stored in the dictionary
being rebuilt; D is the set of cells already scanned. -/
theorem flmRowAux_exact (a b : List α) (alo blo bhi i : Nat)
    (hai : alo ≤ i) (prev : Nat → Nat)
    (hprev : ∀ j, prev j =
      if alo < i ∧ blo ≤ j ∧ j < bhi then runEnd a b alo blo (i - 1) j else 0) :
    ∀ (js : List Nat) (st : FlmSt) (Pd : Nat → Prop) (D : Nat × Nat → Prop),
      js.Pairwise (· < ·) →
      (∀ j ∈ js, cellEq a b i j = true) →
      (∀ j, Pd j → st.j2len j = runEnd a b alo blo i j) →
      (∀ j, ¬ Pd j → st.j2len j = 0) →
      (∀ c, D c → ∀ j ∈ js, lexLt c (i, j)) →
      ExactBest a b alo blo D (st.besti, st.bestj, st.bestsize) →
      (∀ j, Pd j ∨ (j ∈ js ∧ blo ≤ j ∧ j < bhi) →
        (flmRowAux i blo bhi prev js st).j2len j = runEnd a b alo blo i j) ∧
      (∀ j, ¬ Pd j → ¬ (j ∈ js ∧ blo ≤ j ∧ j < bhi) →
        (flmRowAux i blo bhi prev js st).j2len j = 0) ∧
      ExactBest a b alo blo
        (fun c => D c ∨ (c.1 = i ∧ c.2 ∈ js ∧ blo ≤ c.2 ∧ c.2 < bhi))
        ((flmRowAux i blo bhi prev js st).besti,
         (flmRowAux i blo bhi prev js st).bestj,
         (flmRowAux i blo bhi prev js st).bestsize) := by
  intro js
  induction js with
  | nil =>
    intro st Pd D _ _ hd1 hd0 _ hbest
    simp only [flmRowAux]
    refine ⟨?_, ?_, ?_⟩
    · intro j hj
      rcases hj with h | h
      · exact hd1 j h
      · exact absurd h.1 (List.not_mem_nil j)
    · intro j hj _
      exact hd0 j hj
    · refine exactBest_congr a b alo blo ?_ hbest
      intro c
      simp
  | cons j0 js ih =>
    intro st Pd D hpw hcell hd1 hd0 hlex hbest
    rw [List.pairwise_cons] at hpw
    obtain ⟨hj0lt, hpw'⟩ := hpw
    by_cases hskip : j0 < blo
    · simp only [flmRowAux, if_pos hskip]
      obtain ⟨c1, c0, cb⟩ := ih st Pd D hpw'
        (fun j hj => hcell j (List.mem_cons_of_mem _ hj)) hd1 hd0
        (fun c hc j hj => hlex c hc j (List.mem_cons_of_mem _ hj)) hbest
      refine ⟨?_, ?_, ?_⟩
      · intro j hj
        rcases hj with h | ⟨hm, hb1, hb2⟩
        · exact c1 j (Or.inl h)
        · rcases List.mem_cons.mp hm with rfl | hm'
          · exact absurd hb1 (by omega)
          · exact c1 j (Or.inr ⟨hm', hb1, hb2⟩)
      · intro j hj hj2
        refine c0 j hj ?_
        rintro ⟨hm', hb1, hb2⟩
        exact hj2 ⟨List.mem_cons_of_mem _ hm', hb1, hb2⟩
      · refine exactBest_congr a b alo blo ?_ cb
        intro c
        constructor
        · rintro (h | ⟨h1, h2, h3, h4⟩)
          · exact Or.inl h
          · exact Or.inr ⟨h1, List.mem_cons_of_mem _ h2, h3, h4⟩
        · rintro (h | ⟨h1, h2, h3, h4⟩)
          · exact Or.inl h
          · rcases List.mem_cons.mp h2 with heq | hm'
            · exact absurd h3 (by omega)
            · exact Or.inr ⟨h1, hm', h3, h4⟩
    · by_cases hbreak : bhi ≤ j0
      · simp only [flmRowAux, if_neg hskip, if_pos hbreak]
        refine ⟨?_, ?_, ?_⟩
        · intro j hj
          rcases hj with h | ⟨hm, hb1, hb2⟩
          · exact hd1 j h
          · exfalso
            rcases List.mem_cons.mp hm with rfl | hm'
            · omega
            · have := hj0lt j hm'
              omega
        · intro j hj _
          exact hd0 j hj
        · refine exactBest_congr a b alo blo ?_ hbest
          intro c
          constructor
          · exact Or.inl
          · rintro (h | ⟨h1, h2, h3, h4⟩)
            · exact h
            · exfalso
              rcases List.mem_cons.mp h2 with heq | hm'
              · omega
              · have := hj0lt c.2 hm'
                omega
      · have hc0 : cellEq a b i j0 = true := hcell j0 (List.mem_cons_self _ _)
        have hk : (if j0 = 0 then 0 else prev (j0 - 1)) + 1 = runEnd a b alo blo i j0 := by
          have hr : runEnd a b alo blo i j0 =
              (if alo < i ∧ blo < j0 then runEnd a b alo blo (i - 1) (j0 - 1) else 0) + 1 := by
            rw [runEnd_eq]
            rw [if_pos (⟨hai, by omega, hc0⟩ :
              alo ≤ i ∧ blo ≤ j0 ∧ cellEq a b i j0 = true)]
          rw [hr]
          congr 1
          by_cases h0 : j0 = 0
          · subst h0
            rw [if_pos rfl, if_neg (by omega : ¬ (alo < i ∧ blo < 0))]
          · rw [if_neg h0, hprev (j0 - 1)]
            by_cases hh : alo < i ∧ blo < j0
            · rw [if_pos (⟨hh.1, by omega, by omega⟩ :
                alo < i ∧ blo ≤ j0 - 1 ∧ j0 - 1 < bhi), if_pos hh]
            · rw [if_neg (by omega : ¬ (alo < i ∧ blo ≤ j0 - 1 ∧ j0 - 1 < bhi)),
                if_neg hh]
        simp only [flmRowAux, if_neg hskip, if_neg hbreak]
        set k := (if j0 = 0 then 0 else prev (j0 - 1)) + 1 with hkdef
        have hkpos : 0 < k := by
          rw [hkdef]
          omega
        have hbest' : ExactBest a b alo blo (fun c => D c ∨ c = (i, j0))
            ((if st.bestsize < k then i + 1 - k else st.besti),
             (if st.bestsize < k then j0 + 1 - k else st.bestj),
             (if st.bestsize < k then k else st.bestsize)) := by
          obtain ⟨hbnd, hzero, hnz⟩ := hbest
          dsimp only at hbnd hzero hnz
          by_cases hup : st.bestsize < k
          · rw [if_pos hup, if_pos hup, if_pos hup]
            refine ⟨?_, ?_, ?_⟩
            · intro c hc
              rcases hc with h | h
              · have := hbnd c h
                dsimp only
                omega
              · subst h
                dsimp only
                omega
            · intro h0
              dsimp only at h0
              exfalso
              omega
            · intro _
              refine ⟨(i, j0), Or.inr rfl, by dsimp only; exact hk.symm, rfl, ?_⟩
              intro c' hc' hv'
              rcases hc' with h | h
              · have := hbnd c' h
                dsimp only at hv'
                exfalso
                omega
              · exact Or.inl h.symm
          · rw [if_neg hup, if_neg hup, if_neg hup]
            refine ⟨?_, hzero, ?_⟩
            · intro c hc
              rcases hc with h | h
              · exact hbnd c h
              · subst h
                dsimp only
                omega
            · intro h0
              obtain ⟨c0, hc0m, hv0, hp0, hm0⟩ := hnz h0
              refine ⟨c0, Or.inl hc0m, hv0, hp0, ?_⟩
              intro c' hc' hv'
              rcases hc' with h | h
              · exact hm0 c' h hv'
              · subst h
                exact Or.inr (hlex c0 hc0m j0 (List.mem_cons_self _ _))
        obtain ⟨c1, c0, cb⟩ := ih
          { j2len := Function.update st.j2len j0 k
            besti := if st.bestsize < k then i + 1 - k else st.besti
            bestj := if st.bestsize < k then j0 + 1 - k else st.bestj
            bestsize := if st.bestsize < k then k else st.bestsize }
          (fun j => Pd j ∨ j = j0) (fun c => D c ∨ c = (i, j0)) hpw'
          (fun j hj => hcell j (List.mem_cons_of_mem _ hj))
          (by intro j hj
              dsimp only
              rcases hj with h | h
              · rcases eq_or_ne j j0 with rfl | hne
                · rw [Function.update_same]
                  exact hk
                · rw [Function.update_noteq hne]
                  exact hd1 j h
              · subst h
                rw [Function.update_same]
                exact hk)
          (by intro j hj
              dsimp only
              rw [Function.update_noteq (fun he => hj (Or.inr he))]
              exact hd0 j (fun hp => hj (Or.inl hp)))
          (by intro c hc j hj
              rcases hc with h | h
              · exact hlex c h j (List.mem_cons_of_mem _ hj)
              · subst h
                exact Or.inr ⟨rfl, hj0lt j hj⟩)
          hbest'
        refine ⟨?_, ?_, ?_⟩
        · intro j hj
          rcases hj with h | ⟨hm, hb1, hb2⟩
          · exact c1 j (Or.inl (Or.inl h))
          · rcases List.mem_cons.mp hm with rfl | hm'
            · exact c1 _ (Or.inl (Or.inr rfl))
            · exact c1 j (Or.inr ⟨hm', hb1, hb2⟩)
        · intro j hj hj2
          refine c0 j ?_ ?_
          · rintro (h | rfl)
            · exact hj h
            · exact hj2 ⟨List.mem_cons_self _ _, by omega, by omega⟩
          · rintro ⟨hm', hb1, hb2⟩
            exact hj2 ⟨List.mem_cons_of_mem _ hm', hb1, hb2⟩
        · refine exactBest_congr a b alo blo ?_ cb
          intro c
          constructor
          · rintro ((h | rfl) | ⟨h1, h2, h3, h4⟩)
            · exact Or.inl h
            · exact Or.inr ⟨rfl, List.mem_cons_self _ _, (by omega : blo ≤ j0), (by omega : j0 < bhi)⟩
            · exact Or.inr ⟨h1, List.mem_cons_of_mem _ h2, h3, h4⟩
          · rintro (h | ⟨h1, h2, h3, h4⟩)
            · exact Or.inl (Or.inl h)
            · rcases List.mem_cons.mp h2 with heq | hm'
              · exact Or.inl (Or.inr (Prod.ext h1 heq))
              · exact Or.inr ⟨h1, hm', h3, h4⟩

/-- A cell in a row the matcher never visits (a[i] missing) never matches. -/
theorem cellEq_none_left (a b : List α) (i j : Nat) (ha : a.get? i = none) :
    cellEq a b i j = false := by
  unfold cellEq
  rw [ha]

/-- The outer DP loop maintains the exact champion over all scanned cells:
after rows [i0, i0+n) the champion is exact for the union of the previous
cells D and every window cell of the processed rows. -/
theorem flmRows_exact (a b : List α) (alo blo bhi : Nat)
    (hnp : ∀ y, isPopular b y = false) :
    ∀ (n i0 : Nat) (st : FlmSt) (D : Nat × Nat → Prop),
      alo ≤ i0 →
      (∀ j, st.j2len j =
        if alo < i0 ∧ blo ≤ j ∧ j < bhi then runEnd a b alo blo (i0 - 1) j else 0) →
      (∀ c, D c → c.1 < i0) →
      ExactBest a b alo blo D (st.besti, st.bestj, st.bestsize) →
      ExactBest a b alo blo
        (fun c => D c ∨ (i0 ≤ c.1 ∧ c.1 < i0 + n ∧ blo ≤ c.2 ∧ c.2 < bhi ∧
          cellEq a b c.1 c.2 = true))
        ((flmRows a b blo bhi (List.range' i0 n) st).besti,
         (flmRows a b blo bhi (List.range' i0 n) st).bestj,
         (flmRows a b blo bhi (List.range' i0 n) st).bestsize) := by
  intro n
  induction n with
  | zero =>
    intro i0 st D _ _ _ hbest
    refine exactBest_congr a b alo blo ?_ hbest
    intro c
    constructor
    · exact Or.inl
    · rintro (h | h)
      · exact h
      · exfalso
        omega
  | succ n ih =>
    intro i0 st D hi0 hdict hD hbest
    rw [List.range'_succ i0 n 1]
    rcases ha : a.get? i0 with _ | x
    · simp only [flmRows, ha]
      simp only [flmRowAux]
      have hbest0 : ExactBest a b alo blo D
          (({ j2len := fun _ => 0, besti := st.besti, bestj := st.bestj,
              bestsize := st.bestsize } : FlmSt).besti,
           ({ j2len := fun _ => 0, besti := st.besti, bestj := st.bestj,
              bestsize := st.bestsize } : FlmSt).bestj,
           ({ j2len := fun _ => 0, besti := st.besti, bestj := st.bestj,
              bestsize := st.bestsize } : FlmSt).bestsize) := hbest
      have h2 := ih (i0 + 1)
        { j2len := fun _ => 0, besti := st.besti, bestj := st.bestj,
          bestsize := st.bestsize } D (by omega)
        (by intro j
            dsimp only
            by_cases hw : blo ≤ j ∧ j < bhi
            · rw [if_pos ⟨by omega, hw.1, hw.2⟩]
              have : i0 + 1 - 1 = i0 := by omega
              rw [this, runEnd_eq,
                if_neg (by rw [cellEq_none_left a b i0 j ha]; simp)]
            · rw [if_neg (by omega : ¬ (alo < i0 + 1 ∧ blo ≤ j ∧ j < bhi))])
        (fun c hc => by have := hD c hc; omega) hbest0
      refine exactBest_congr a b alo blo ?_ h2
      intro c
      constructor
      · rintro (h | ⟨h1, h2, h3, h4, h5⟩)
        · exact Or.inl h
        · exact Or.inr ⟨by omega, by omega, h3, h4, h5⟩
      · rintro (h | ⟨h1, h2, h3, h4, h5⟩)
        · exact Or.inl h
        · rcases eq_or_ne c.1 i0 with he | hne
          · exfalso
            rw [he, cellEq_none_left a b i0 c.2 ha] at h5
            exact Bool.noConfusion h5
          · exact Or.inr ⟨by omega, by omega, h3, h4, h5⟩
    · simp only [flmRows, ha]
      obtain ⟨c1, c0, cb⟩ := flmRowAux_exact a b alo blo bhi i0 hi0 st.j2len hdict
        (b2j b x)
        { j2len := fun _ => 0, besti := st.besti, bestj := st.bestj,
          bestsize := st.bestsize }
        (fun _ => False) D (b2j_pairwise b x)
        (fun j hj => cellEq_of_get a b ha ((mem_b2j_iff b hnp x j).mp hj))
        (fun j hj => hj.elim)
        (fun j _ => rfl)
        (fun c hc j hj => Or.inl (hD c hc))
        hbest
      have h2 := ih (i0 + 1) _
        (fun c => D c ∨ (c.1 = i0 ∧ c.2 ∈ b2j b x ∧ blo ≤ c.2 ∧ c.2 < bhi))
        (by omega)
        (by intro j
            by_cases hw : blo ≤ j ∧ j < bhi
            · by_cases hjc : cellEq a b i0 j = true
              · obtain ⟨y, hay, hby⟩ := (cellEq_iff a b i0 j).mp hjc
                rw [ha] at hay
                have hxy : y = x := by
                  injection hay with h
                  exact h.symm
                rw [hxy] at hby
                have hmem : j ∈ b2j b x := (mem_b2j_iff b hnp x j).mpr hby
                rw [c1 j (Or.inr ⟨hmem, hw.1, hw.2⟩),
                  if_pos (⟨by omega, hw.1, hw.2⟩ :
                    alo < i0 + 1 ∧ blo ≤ j ∧ j < bhi)]
                have : i0 + 1 - 1 = i0 := by omega
                rw [this]
              · have hnm : ¬ (j ∈ b2j b x ∧ blo ≤ j ∧ j < bhi) := by
                  rintro ⟨hm, _, _⟩
                  exact hjc (cellEq_of_get a b ha ((mem_b2j_iff b hnp x j).mp hm))
                rw [c0 j not_false hnm,
                  if_pos (⟨by omega, hw.1, hw.2⟩ :
                    alo < i0 + 1 ∧ blo ≤ j ∧ j < bhi)]
                have : i0 + 1 - 1 = i0 := by omega
                rw [this, runEnd_eq, if_neg]
                rintro ⟨_, _, hcc⟩
                exact hjc hcc
            · rw [c0 j not_false (fun hcontra => hw ⟨hcontra.2.1, hcontra.2.2⟩),
                if_neg (by omega : ¬ (alo < i0 + 1 ∧ blo ≤ j ∧ j < bhi))])
        (by rintro c (h | h)
            · have := hD c h
              omega
            · omega)
        cb
      refine exactBest_congr a b alo blo ?_ h2
      intro c
      constructor
      · rintro ((h | ⟨h1, h2, h3, h4⟩) | ⟨h1, h2, h3, h4, h5⟩)
        · exact Or.inl h
        · refine Or.inr ⟨by omega, by omega, h3, h4, ?_⟩
          rw [h1]
          exact cellEq_of_get a b ha ((mem_b2j_iff b hnp x c.2).mp h2)
        · exact Or.inr ⟨by omega, by omega, h3, h4, h5⟩
      · rintro (h | ⟨h1, h2, h3, h4, h5⟩)
        · exact Or.inl (Or.inl h)
        · rcases eq_or_ne c.1 i0 with he | hne
          · refine Or.inl (Or.inr ⟨he, ?_, h3, h4⟩)
            refine (mem_b2j_iff b hnp x c.2).mpr ?_
            obtain ⟨y, hay, hby⟩ := (cellEq_iff a b c.1 c.2).mp h5
            rw [he, ha] at hay
            have hxy : y = x := by
              injection hay with h
              exact h.symm
            rw [hxy] at hby
            exact hby
          · exact Or.inr ⟨by omega, by omega, h3, h4, h5⟩

/-- The DP champion is exact over the entire window: at the end of the row
loop it is the lexicographically first maximal-backward-run end cell. -/
theorem flm_exact (a b : List α) (alo ahi blo bhi : Nat)
    (hnp : ∀ y, isPopular b y = false) (hwa : alo ≤ ahi) :
    ExactBest a b alo blo
      (fun c => alo ≤ c.1 ∧ c.1 < ahi ∧ blo ≤ c.2 ∧ c.2 < bhi ∧
        cellEq a b c.1 c.2 = true)
      ((flmRows a b blo bhi (List.range' alo (ahi - alo))
          { j2len := fun _ => 0, besti := alo, bestj := blo, bestsize := 0 }).besti,
       (flmRows a b blo bhi (List.range' alo (ahi - alo))
          { j2len := fun _ => 0, besti := alo, bestj := blo, bestsize := 0 }).bestj,
       (flmRows a b blo bhi (List.range' alo (ahi - alo))
          { j2len := fun _ => 0, besti := alo, bestj := blo, bestsize := 0 }).bestsize) := by
  have h := flmRows_exact a b alo blo bhi hnp (ahi - alo) alo
    { j2len := fun _ => 0, besti := alo, bestj := blo, bestsize := 0 }
    (fun _ => False) (le_refl alo)
    (by intro j
        dsimp only
        rw [if_neg (by omega : ¬ (alo < alo ∧ blo ≤ j ∧ j < bhi))])
    (fun c hc => hc.elim)
    ⟨fun c hc => hc.elim, fun _ => rfl, fun h0 => absurd rfl h0⟩
  refine exactBest_congr a b alo blo ?_ h
  intro c
  constructor
  · rintro (h | ⟨h1, h2, h3, h4, h5⟩)
    · exact h.elim
    · exact ⟨h1, by omega, h3, h4, h5⟩
  · rintro ⟨h1, h2, h3, h4, h5⟩
    exact Or.inr ⟨h1, by omega, h3, h4, h5⟩

/-- The exact champion over the window's cells, read through the
ends-to-starts bijection, is the spec's best match. -/
theorem exactBest_isBest (a b : List α) (alo ahi blo bhi : Nat) (t : Nat × Nat × Nat)
    (h : ExactBest a b alo blo
      (fun c => alo ≤ c.1 ∧ c.1 < ahi ∧ blo ≤ c.2 ∧ c.2 < bhi ∧
        cellEq a b c.1 c.2 = true) t) :
    IsBestMatch a b alo ahi blo bhi t := by
  obtain ⟨hbnd, hzero, hnz⟩ := h
  refine ⟨?_, hzero, ?_⟩
  · intro i j k hi hj hik hjk hrun
    by_cases hk0 : k = 0
    · omega
    · have hcell : cellEq a b (i + (k - 1)) (j + (k - 1)) = true := hrun (k - 1) (by omega)
      have h1 := runEnd_complete a b alo blo k i j hi hj hrun (by omega)
      have h2 := hbnd (i + (k - 1), j + (k - 1))
        ⟨by omega, by omega, by omega, by omega, hcell⟩
      dsimp only at h2
      omega
  · intro h0
    obtain ⟨c, hc, hv, hp, hmin⟩ := hnz h0
    obtain ⟨hc1, hc2, hc3, hc4, hc5⟩ := hc
    obtain ⟨p1, p2, p3, p4, p5, p6, prun⟩ := runEnd_sound a b alo blo c.1 c.2
      (by rw [hv]; exact h0)
    rw [hv] at p3 p4 p5 p6 prun
    have e1 : t.1 = c.1 + 1 - t.2.2 := by rw [hp]
    have e2 : t.2.1 = c.2 + 1 - t.2.2 := by rw [hp]
    refine ⟨by omega, by omega, by omega, by omega, by rw [e1, e2]; exact prun, ?_⟩
    intro i j hi hj hik hjk hrun
    have hcell : cellEq a b (i + (t.2.2 - 1)) (j + (t.2.2 - 1)) = true :=
      hrun (t.2.2 - 1) (by omega)
    have hge := runEnd_complete a b alo blo t.2.2 i j hi hj hrun (by omega)
    have hle := hbnd (i + (t.2.2 - 1), j + (t.2.2 - 1))
      ⟨by omega, by omega, by omega, by omega, hcell⟩
    dsimp only at hle
    have heq : runEnd a b alo blo (i + (t.2.2 - 1)) (j + (t.2.2 - 1)) = t.2.2 := by
      omega
    rcases hmin (i + (t.2.2 - 1), j + (t.2.2 - 1)) ⟨by omega, by omega, by omega,
      by omega, hcell⟩ heq with hcc | hcc
    · left
      have f1 : c.1 = i + (t.2.2 - 1) := congrArg Prod.fst hcc
      have f2 : c.2 = j + (t.2.2 - 1) := congrArg Prod.snd hcc
      refine Prod.ext ?_ ?_
      · dsimp only
        omega
      · dsimp only
        omega
    · right
      rcases hcc with hlt | ⟨heq1, hlt2⟩
      · left
        dsimp only at hlt ⊢
        omega
      · right
        dsimp only at heq1 hlt2 ⊢
        constructor
        · omega
        · omega

/-- lexLt is asymmetric. -/
theorem lexLt_asymm {p q : Nat × Nat} (h1 : lexLt p q) (h2 : lexLt q p) : False := by
  rcases h1 with h | ⟨e, h⟩ <;> rcases h2 with h' | ⟨e', h'⟩ <;> omega

/-- The best-match characterization determines the triple uniquely. -/
theorem isBestMatch_unique (a b : List α) (alo ahi blo bhi : Nat)
    (t t' : Nat × Nat × Nat)
    (h : IsBestMatch a b alo ahi blo bhi t)
    (h' : IsBestMatch a b alo ahi blo bhi t') : t = t' := by
  obtain ⟨hmax, hzero, hnz⟩ := h
  obtain ⟨hmax', hzero', hnz'⟩ := h'
  by_cases h0 : t.2.2 = 0
  · by_cases h0' : t'.2.2 = 0
    · rw [hzero h0, hzero' h0']
    · obtain ⟨w1, w2, w3, w4, w5, _⟩ := hnz' h0'
      have := hmax t'.1 t'.2.1 t'.2.2 w1 w2 w3 w4 w5
      omega
  · by_cases h0' : t'.2.2 = 0
    · obtain ⟨w1, w2, w3, w4, w5, _⟩ := hnz h0
      have := hmax' t.1 t.2.1 t.2.2 w1 w2 w3 w4 w5
      omega
    · obtain ⟨w1, w2, w3, w4, w5, wmin⟩ := hnz h0
      obtain ⟨v1, v2, v3, v4, v5, vmin⟩ := hnz' h0'
      have hsz : t.2.2 = t'.2.2 :=
        le_antisymm (hmax' t.1 t.2.1 t.2.2 w1 w2 w3 w4 w5)
          (hmax t'.1 t'.2.1 t'.2.2 v1 v2 v3 v4 v5)
      have hrun' : matchRun a b t'.1 t'.2.1 t.2.2 := by
        rw [hsz]
        exact v5
      have w := wmin t'.1 t'.2.1 v1 v2 (by omega) (by omega) hrun'
      have hrun : matchRun a b t.1 t.2.1 t'.2.2 := by
        rw [← hsz]
        exact w5
      have v := vmin t.1 t.2.1 w1 w2 (by omega) (by omega) hrun
      rcases w with we | wlt
      · have q1 := congrArg Prod.fst we
        have q2 := congrArg Prod.snd we
        dsimp only at q1 q2
        exact Prod.ext q1 (Prod.ext q2 hsz)
      · rcases v with ve | vlt
        · have q1 := congrArg Prod.fst ve
          have q2 := congrArg Prod.snd ve
          dsimp only at q1 q2
          exact Prod.ext q1.symm (Prod.ext q2.symm hsz)
        · exact (lexLt_asymm wlt vlt).elim

/-- When the first extension loop's guard fails, the loop is the
identity. -/
theorem extendLeft_noop (a b : List α) (alo blo besti bestj bestsize : Nat)
    (hg : ¬ (alo < besti ∧ blo < bestj ∧ cellEq a b (besti - 1) (bestj - 1) = true)) :
    extendLeft a b alo blo besti bestj bestsize = (besti, bestj, bestsize) := by
  unfold extendLeft
  cases besti with
  | zero => rfl
  | succ m =>
    simp only [extendLeftGo]
    rw [if_neg hg]

/-- When the second extension loop's guard fails, the loop is the
identity. -/
theorem extendRight_noop (a b : List α) (ahi bhi besti bestj bestsize : Nat)
    (hg : ¬ (besti + bestsize < ahi ∧ bestj + bestsize < bhi ∧
      cellEq a b (besti + bestsize) (bestj + bestsize) = true)) :
    extendRight a b ahi bhi besti bestj bestsize = bestsize := by
  unfold extendRight
  cases hf : ahi - (besti + bestsize) with
  | zero => rfl
  | succ m =>
    simp only [extendRightGo]
    rw [if_neg hg]

/-- A best match cannot be extended on either side, so both extension
loops of find_longest_match leave it unchanged. -/
theorem isBestMatch_extend_noop (a b : List α) (alo ahi blo bhi bi bj bs : Nat)
    (hwa : alo ≤ ahi) (hwb : blo ≤ bhi)
    (hbm : IsBestMatch a b alo ahi blo bhi (bi, bj, bs)) :
    extendLeft a b alo blo bi bj bs = (bi, bj, bs) ∧
    extendRight a b ahi bhi bi bj bs = bs := by
  obtain ⟨hmax, hzero, hnz⟩ := hbm
  have hfacts : alo ≤ bi ∧ blo ≤ bj ∧ bi + bs ≤ ahi ∧ bj + bs ≤ bhi ∧
      matchRun a b bi bj bs := by
    by_cases h0 : bs = 0
    · have he := hzero (by dsimp only; exact h0)
      have e1 : bi = alo := by
        have := congrArg Prod.fst he
        simpa using this
      have e2 : bj = blo := by
        have := congrArg (fun p => p.2.1) he
        simpa using this
      subst h0
      exact ⟨by omega, by omega, by omega, by omega, matchRun_zero a b bi bj⟩
    · obtain ⟨w1, w2, w3, w4, w5, _⟩ := hnz (by dsimp only; exact h0)
      exact ⟨w1, w2, w3, w4, w5⟩
  obtain ⟨f1, f2, f3, f4, frun⟩ := hfacts
  constructor
  · refine extendLeft_noop a b alo blo bi bj bs ?_
    rintro ⟨g1, g2, g3⟩
    have hext : matchRun a b (bi - 1) (bj - 1) (bs + 1) := by
      refine matchRun_succ_left a b (bi - 1) (bj - 1) bs g3 ?_
      have e1 : bi - 1 + 1 = bi := by omega
      have e2 : bj - 1 + 1 = bj := by omega
      rw [e1, e2]
      exact frun
    have := hmax (bi - 1) (bj - 1) (bs + 1) (by omega) (by omega) (by omega)
      (by omega) hext
    dsimp only at this
    omega
  · refine extendRight_noop a b ahi bhi bi bj bs ?_
    rintro ⟨g1, g2, g3⟩
    have hext : matchRun a b bi bj (bs + 1) := matchRun_succ_right a b bi bj bs frun g3
    have := hmax bi bj (bs + 1) f1 f2 (by omega) (by omega) hext
    dsimp only at this
    omega

/-- find_longest_match satisfies the spec's best-match characterization
whenever b has no popular token (in particular whenever b is short). -/
theorem flm_isBest (a b : List α) (alo ahi blo bhi : Nat)
    (hnp : ∀ y, isPopular b y = false) (hwa : alo ≤ ahi) (hwb : blo ≤ bhi) :
    IsBestMatch a b alo ahi blo bhi (find_longest_match a b alo ahi blo bhi) := by
  have hbm := exactBest_isBest a b alo ahi blo bhi _
    (flm_exact a b alo ahi blo bhi hnp hwa)
  have hnoop := isBestMatch_extend_noop a b alo ahi blo bhi
    (flmRows a b blo bhi (List.range' alo (ahi - alo))
      { j2len := fun _ => 0, besti := alo, bestj := blo, bestsize := 0 }).besti
    (flmRows a b blo bhi (List.range' alo (ahi - alo))
      { j2len := fun _ => 0, besti := alo, bestj := blo, bestsize := 0 }).bestj
    (flmRows a b blo bhi (List.range' alo (ahi - alo))
      { j2len := fun _ => 0, besti := alo, bestj := blo, bestsize := 0 }).bestsize
    hwa hwb hbm
  have hfl : find_longest_match a b alo ahi blo bhi =
      ((flmRows a b blo bhi (List.range' alo (ahi - alo))
        { j2len := fun _ => 0, besti := alo, bestj := blo, bestsize := 0 }).besti,
       (flmRows a b blo bhi (List.range' alo (ahi - alo))
        { j2len := fun _ => 0, besti := alo, bestj := blo, bestsize := 0 }).bestj,
       (flmRows a b blo bhi (List.range' alo (ahi - alo))
        { j2len := fun _ => 0, besti := alo, bestj := blo, bestsize := 0 }).bestsize) := by
    simp only [find_longest_match]
    rw [hnoop.1]
    dsimp only
    rw [hnoop.2]
  rw [hfl]
  exact hbm

/-- Without popular tokens, find_longest_match computes exactly the match
described by the spec: maximal length with the smallest reference start,
then the smallest hypothesis start. -/
theorem flm_eq_spec (a b : List α) (alo ahi blo bhi : Nat)
    (hnp : ∀ y, isPopular b y = false) (hwa : alo ≤ ahi) (hwb : blo ≤ bhi) :
    find_longest_match a b alo ahi blo bhi = specLongestMatch a b alo ahi blo bhi :=
  isBestMatch_unique a b alo ahi blo bhi _ _
    (flm_isBest a b alo ahi blo bhi hnp hwa hwb)
    (specLongestMatch_isBest a b alo ahi blo bhi)

/-- A sequence of fewer than 200 tokens has no popular token: the autojunk
heuristic never fires. -/
theorem isPopular_short (b : List α) (h : b.length < 200) (y : α) :
    isPopular b y = false := by
  unfold isPopular
  rw [decide_eq_false (by omega : ¬ 200 ≤ b.length)]
  rfl

/-- Every block of the recursive partition is a real nonzero matching
run. -/
theorem matchingBlocksAux_runs (a b : List α) :
    ∀ (f alo ahi blo bhi : Nat), alo ≤ ahi → blo ≤ bhi →
      ∀ blk ∈ matchingBlocksAux a b f alo ahi blo bhi,
        matchRun a b blk.1 blk.2.1 blk.2.2 ∧ blk.2.2 ≠ 0 := by
  intro f
  induction f with
  | zero =>
    intro alo ahi blo bhi _ _ blk hblk
    simp [matchingBlocksAux] at hblk
  | succ f ih =>
    intro alo ahi blo bhi hwa hwb blk hblk
    simp only [matchingBlocksAux] at hblk
    by_cases hm0 : (find_longest_match a b alo ahi blo bhi).2.2 = 0
    · rw [if_pos hm0] at hblk
      simp at hblk
    · rw [if_neg hm0] at hblk
      have hs := (flm_sound a b alo ahi blo bhi hwa).2 hm0
      obtain ⟨w1, w2, w3, w4, w5⟩ := hs
      rcases List.mem_append.mp hblk with h | h
      · exact ih alo (find_longest_match a b alo ahi blo bhi).1 blo
          (find_longest_match a b alo ahi blo bhi).2.1 w1 w2 blk h
      · rcases List.mem_cons.mp h with rfl | h
        · exact ⟨w5, hm0⟩
        · exact ih ((find_longest_match a b alo ahi blo bhi).1 +
              (find_longest_match a b alo ahi blo bhi).2.2) ahi
            ((find_longest_match a b alo ahi blo bhi).2.1 +
              (find_longest_match a b alo ahi blo bhi).2.2) bhi w3 w4 blk h

/-- Without popular tokens, consecutive blocks of the recursive partition
are never adjacent: an adjacent pair would merge into a longer common run
than the window's maximal match. -/
theorem matchingBlocksAux_chain (a b : List α)
    (hnp : ∀ y, isPopular b y = false) :
    ∀ (f alo ahi blo bhi : Nat), alo ≤ ahi → blo ≤ bhi →
      List.Chain'
        (fun b1 b2 : Block => ¬ (b1.1 + b1.2.2 = b2.1 ∧ b1.2.1 + b1.2.2 = b2.2.1))
        (matchingBlocksAux a b f alo ahi blo bhi) := by
  intro f
  induction f with
  | zero =>
    intro alo ahi blo bhi _ _
    simp [matchingBlocksAux]
  | succ f ih =>
    intro alo ahi blo bhi hwa hwb
    simp only [matchingBlocksAux]
    by_cases hm0 : (find_longest_match a b alo ahi blo bhi).2.2 = 0
    · rw [if_pos hm0]
      simp
    · rw [if_neg hm0]
      have hs := (flm_sound a b alo ahi blo bhi hwa).2 hm0
      obtain ⟨w1, w2, w3, w4, w5⟩ := hs
      have hmax := (flm_isBest a b alo ahi blo bhi hnp hwa hwb).1
      rw [List.chain'_append]
      refine ⟨ih alo _ blo _ w1 w2, ?_, ?_⟩
      · rw [List.chain'_cons']
        refine ⟨?_, ih _ ahi _ bhi w3 w4⟩
        intro y hy
        have hym := List.mem_of_mem_head? hy
        obtain ⟨yrun, ynz⟩ := matchingBlocksAux_runs a b f _ ahi _ bhi w3 w4 y hym
        obtain ⟨y1, y2, y3, y4⟩ := matchingBlocksAux_bounds a b f _ ahi _ bhi w3 w4 y hym
        rintro ⟨e1, e2⟩
        dsimp only at e1 e2
        have hcomb : matchRun a b (find_longest_match a b alo ahi blo bhi).1
            (find_longest_match a b alo ahi blo bhi).2.1
            ((find_longest_match a b alo ahi blo bhi).2.2 + y.2.2) := by
          refine matchRun_concat a b _ _ _ _ w5 ?_
          rw [e1, e2]
          exact yrun
        have := hmax (find_longest_match a b alo ahi blo bhi).1
          (find_longest_match a b alo ahi blo bhi).2.1
          ((find_longest_match a b alo ahi blo bhi).2.2 + y.2.2)
          w1 w2 (by omega) (by omega) hcomb
        omega
      · intro x hx y hy
        have hxm := List.mem_of_mem_getLast? hx
        have hym : find_longest_match a b alo ahi blo bhi = y := by
          simpa using hy
        obtain ⟨xrun, xnz⟩ := matchingBlocksAux_runs a b f alo _ blo _ w1 w2 x hxm
        obtain ⟨x1, x2, x3, x4⟩ := matchingBlocksAux_bounds a b f alo _ blo _ w1 w2 x hxm
        rw [← hym]
        rintro ⟨e1, e2⟩
        have hcomb : matchRun a b x.1 x.2.1
            (x.2.2 + (find_longest_match a b alo ahi blo bhi).2.2) := by
          refine matchRun_concat a b _ _ _ _ xrun ?_
          rw [e1, e2]
          exact w5
        have := hmax x.1 x.2.1 (x.2.2 + (find_longest_match a b alo ahi blo bhi).2.2)
          x1 x2 (by omega) (by omega) hcomb
        omega

/-- Starting the adjacency merge from the pseudo-group (0, 0, 0) is the
same as starting from the first real block. -/
theorem mergeAdjAux_zero_start (blk : Block) (rest : List Block) :
    mergeAdjAux 0 0 0 (blk :: rest) = mergeAdjAux blk.1 blk.2.1 blk.2.2 rest := by
  obtain ⟨i2, j2, k2⟩ := blk
  simp only [mergeAdjAux]
  by_cases h : (0:Nat) + 0 = i2 ∧ (0:Nat) + 0 = j2
  · obtain ⟨h1, h2⟩ := h
    have e1 : i2 = 0 := by omega
    have e2 : j2 = 0 := by omega
    subst e1
    subst e2
    rw [if_pos ⟨rfl, rfl⟩]
    norm_num
  · rw [if_neg h, if_neg (by decide : ¬ ((0:Nat) ≠ 0))]

/-- The adjacency merge is the identity on a chain of nonzero, pairwise
non-adjacent blocks. -/
theorem mergeAdjAux_nonadj :
    ∀ (rest : List Block) (i1 j1 k1 : Nat), k1 ≠ 0 →
      (∀ b ∈ rest, b.2.2 ≠ 0) →
      List.Chain'
        (fun b1 b2 : Block => ¬ (b1.1 + b1.2.2 = b2.1 ∧ b1.2.1 + b1.2.2 = b2.2.1))
        ((i1, j1, k1) :: rest) →
      mergeAdjAux i1 j1 k1 rest = (i1, j1, k1) :: rest := by
  intro rest
  induction rest with
  | nil =>
    intro i1 j1 k1 hk _ _
    simp only [mergeAdjAux]
    rw [if_pos hk]
  | cons blk rest ih =>
    intro i1 j1 k1 hk hnz hch
    obtain ⟨i2, j2, k2⟩ := blk
    rw [List.chain'_cons] at hch
    obtain ⟨hr, hch'⟩ := hch
    simp only [mergeAdjAux]
    rw [if_neg hr, if_pos hk,
      ih i2 j2 k2 (hnz (i2, j2, k2) (List.mem_cons_self _ _))
        (fun b hb => hnz b (List.mem_cons_of_mem _ hb)) hch']

/-- Without popular tokens get_matching_blocks is the recursive partition
followed by the sentinel: the adjacency merge never fires. -/
theorem get_matching_blocks_eq (a b : List α)
    (hnp : ∀ y, isPopular b y = false) :
    get_matching_blocks a b =
      matchingBlocksAux a b (a.length + b.length) 0 a.length 0 b.length ++
        [(a.length, b.length, 0)] := by
  unfold get_matching_blocks
  congr 1
  cases hl : matchingBlocksAux a b (a.length + b.length) 0 a.length 0 b.length with
  | nil =>
    simp only [mergeAdjAux]
    rw [if_neg (by decide : ¬ ((0:Nat) ≠ 0))]
  | cons blk rest =>
    rw [mergeAdjAux_zero_start]
    have hmem : ∀ x ∈ blk :: rest, matchRun a b x.1 x.2.1 x.2.2 ∧ x.2.2 ≠ 0 := by
      intro x hx
      refine matchingBlocksAux_runs a b (a.length + b.length) 0 a.length 0 b.length
        (by omega) (by omega) x ?_
      rw [hl]
      exact hx
    have hch : List.Chain'
        (fun b1 b2 : Block => ¬ (b1.1 + b1.2.2 = b2.1 ∧ b1.2.1 + b1.2.2 = b2.2.1))
        (blk :: rest) := by
      rw [← hl]
      exact matchingBlocksAux_chain a b hnp (a.length + b.length) 0 a.length 0 b.length
        (by omega) (by omega)
    exact mergeAdjAux_nonadj rest blk.1 blk.2.1 blk.2.2
      (hmem blk (List.mem_cons_self _ _)).2
      (fun x hx => (hmem x (List.mem_cons_of_mem _ hx)).2) hch

/-- The opcode walk of the recursive partition, followed by a block that
starts exactly at the window's end, is the spec's opcode partition of the
window followed by the walk of the remaining blocks. -/
theorem walk_eq_spec (a b : List α) (hnp : ∀ y, isPopular b y = false) :
    ∀ (f alo ahi blo bhi sz : Nat) (rest : List Block),
      alo ≤ ahi → blo ≤ bhi → (ahi - alo) + (bhi - blo) ≤ f →
      opWalk (matchingBlocksAux a b f alo ahi blo bhi ++ (ahi, bhi, sz) :: rest)
          alo blo =
        specOpcodesAux a b f alo ahi blo bhi ++
          opWalk ((ahi, bhi, sz) :: rest) ahi bhi := by
  intro f
  induction f with
  | zero =>
    intro alo ahi blo bhi sz rest hwa hwb hf
    have e1 : alo = ahi := by omega
    have e2 : blo = bhi := by omega
    subst e1
    subst e2
    simp only [matchingBlocksAux, specOpcodesAux, List.nil_append]
  | succ f ih =>
    intro alo ahi blo bhi sz rest hwa hwb hf
    simp only [matchingBlocksAux, specOpcodesAux]
    rw [flm_eq_spec a b alo ahi blo bhi hnp hwa hwb]
    by_cases hm0 : (specLongestMatch a b alo ahi blo bhi).2.2 = 0
    · rw [if_pos hm0, if_pos hm0]
      simp only [List.nil_append, opWalk]
      rw [if_neg (by omega : ¬ (ahi < ahi ∧ bhi < bhi)),
        if_neg (by omega : ¬ ahi < ahi), if_neg (by omega : ¬ bhi < bhi)]
      simp only [List.nil_append, List.append_assoc]
    · rw [if_neg hm0, if_neg hm0]
      obtain ⟨w1, w2, w3, w4, _, _⟩ :=
        (specLongestMatch_isBest a b alo ahi blo bhi).2.2 hm0
      rw [List.append_assoc, List.cons_append]
      rw [ih alo (specLongestMatch a b alo ahi blo bhi).1 blo
        (specLongestMatch a b alo ahi blo bhi).2.1
        (specLongestMatch a b alo ahi blo bhi).2.2
        (matchingBlocksAux a b f
          ((specLongestMatch a b alo ahi blo bhi).1 +
            (specLongestMatch a b alo ahi blo bhi).2.2) ahi
          ((specLongestMatch a b alo ahi blo bhi).2.1 +
            (specLongestMatch a b alo ahi blo bhi).2.2) bhi ++
          (ahi, bhi, sz) :: rest)
        w1 w2 (by omega)]
      conv_lhs => rw [opWalk]
      rw [if_neg (by omega :
          ¬ ((specLongestMatch a b alo ahi blo bhi).1 <
              (specLongestMatch a b alo ahi blo bhi).1 ∧
            (specLongestMatch a b alo ahi blo bhi).2.1 <
              (specLongestMatch a b alo ahi blo bhi).2.1)),
        if_neg (by omega :
          ¬ (specLongestMatch a b alo ahi blo bhi).1 <
              (specLongestMatch a b alo ahi blo bhi).1),
        if_neg (by omega :
          ¬ (specLongestMatch a b alo ahi blo bhi).2.1 <
              (specLongestMatch a b alo ahi blo bhi).2.1),
        if_pos hm0]
      rw [ih ((specLongestMatch a b alo ahi blo bhi).1 +
          (specLongestMatch a b alo ahi blo bhi).2.2) ahi
        ((specLongestMatch a b alo ahi blo bhi).2.1 +
          (specLongestMatch a b alo ahi blo bhi).2.2) bhi sz rest
        w3 w4 (by omega)]
      simp only [List.nil_append, List.append_assoc, List.cons_append]

/-- With no popular token in b, get_opcodes computes exactly the opcode
partition described by the spec. -/
theorem get_opcodes_eq_specAux (a b : List α)
    (hnp : ∀ y, isPopular b y = false) :
    get_opcodes a b = specOpcodes a b := by
  unfold get_opcodes specOpcodes
  rw [get_matching_blocks_eq a b hnp]
  rw [walk_eq_spec a b hnp (a.length + b.length) 0 a.length 0 b.length 0 []
    (by omega) (by omega) (by omega)]
  simp only [opWalk]
  rw [if_neg (by omega : ¬ (a.length < a.length ∧ b.length < b.length)),
    if_neg (by omega : ¬ a.length < a.length),
    if_neg (by omega : ¬ b.length < b.length),
    if_neg (by decide : ¬ ((0:Nat) ≠ 0))]
  simp

/-- Distinct elements sit at the two ends of a failed cell. -/
theorem cellEq_false_ne (a b : List α) {i j : Nat} {x y : α}
    (ha : a.get? i = some x) (hb : b.get? j = some y)
    (h : cellEq a b i j = false) : x ≠ y := by
  intro he
  subst he
  rw [cellEq_of_get a b ha hb] at h
  exact Bool.noConfusion h

/-- The replace windows of the spec partition contain no matching cell:
every replace opcode arises from a window whose best match has size
zero. -/
theorem specOpcodesAux_replace_no_common (a b : List α) :
    ∀ (f alo ahi blo bhi : Nat), alo ≤ ahi → blo ≤ bhi →
      ∀ op ∈ specOpcodesAux a b f alo ahi blo bhi, op.1 = Tag.replace →
        ∀ i j, op.2.1 ≤ i → i < op.2.2.1 → op.2.2.2.1 ≤ j → j < op.2.2.2.2 →
          cellEq a b i j = false := by
  intro f
  induction f with
  | zero =>
    intro alo ahi blo bhi _ _ op hop
    simp [specOpcodesAux] at hop
  | succ f ih =>
    intro alo ahi blo bhi hwa hwb op hop htag i j h1 h2 h3 h4
    simp only [specOpcodesAux] at hop
    by_cases hm0 : (specLongestMatch a b alo ahi blo bhi).2.2 = 0
    · rw [if_pos hm0] at hop
      by_cases hc1 : alo < ahi ∧ blo < bhi
      · rw [if_pos hc1] at hop
        have hope : op = (Tag.replace, alo, ahi, blo, bhi) := by simpa using hop
        subst hope
        dsimp only at h1 h2 h3 h4
        cases hcc : cellEq a b i j with
        | false => rfl
        | true =>
          exfalso
          have hrun : matchRun a b i j 1 := matchRun_one a b i j hcc
          have := (specLongestMatch_isBest a b alo ahi blo bhi).1 i j 1
            h1 h3 (by omega) (by omega) hrun
          omega
      · rw [if_neg hc1] at hop
        by_cases hc2 : alo < ahi
        · rw [if_pos hc2] at hop
          have hope : op = (Tag.delete, alo, ahi, blo, bhi) := by simpa using hop
          subst hope
          exact Tag.noConfusion htag
        · rw [if_neg hc2] at hop
          by_cases hc3 : blo < bhi
          · rw [if_pos hc3] at hop
            have hope : op = (Tag.insert, alo, ahi, blo, bhi) := by simpa using hop
            subst hope
            exact Tag.noConfusion htag
          · rw [if_neg hc3] at hop
            simp at hop
    · rw [if_neg hm0] at hop
      obtain ⟨w1, w2, w3, w4, _, _⟩ :=
        (specLongestMatch_isBest a b alo ahi blo bhi).2.2 hm0
      rcases List.mem_append.mp hop with h | h
      · exact ih alo _ blo _ w1 w2 op h htag i j h1 h2 h3 h4
      · rcases List.mem_cons.mp h with rfl | h
        · exact Tag.noConfusion htag
        · exact ih _ ahi _ bhi w3 w4 op h htag i j h1 h2 h3 h4

/-- Every substitution pair emitted by the replace walk is the positional
pair of real tokens of the two slices at a shared offset. -/
theorem replaceWalk_subs_mem (r h : List String) :
    ∀ p ∈ (replaceWalk r h).1, ∃ k, k < r.length ∧ k < h.length ∧
      p = (r.getD k "", h.getD k "") := by
  have key : ∀ (ks : List Nat)
      (acc : List (String × String) × List String × List String),
      (∀ p ∈ acc.1, ∃ k, k < r.length ∧ k < h.length ∧
        p = (r.getD k "", h.getD k "")) →
      ∀ p ∈ (ks.foldl (replaceStep r h) acc).1, ∃ k, k < r.length ∧ k < h.length ∧
        p = (r.getD k "", h.getD k "") := by
    intro ks
    induction ks with
    | nil =>
      intro acc hacc p hp
      rw [List.foldl_nil] at hp
      exact hacc p hp
    | cons k0 ks ih =>
      intro acc hacc p hp
      rw [List.foldl_cons] at hp
      refine ih _ ?_ p hp
      intro q hq
      simp only [replaceStep] at hq
      by_cases hb1 : (if k0 < r.length then r.getD k0 "" else "") ≠ "" ∧
          (if k0 < h.length then h.getD k0 "" else "") ≠ ""
      · rw [if_pos hb1] at hq
        dsimp only at hq
        rcases List.mem_append.mp hq with hq' | hq'
        · exact hacc q hq'
        · have hqe : q = ((if k0 < r.length then r.getD k0 "" else ""),
              (if k0 < h.length then h.getD k0 "" else "")) := by simpa using hq'
          obtain ⟨hr1, ht1⟩ := hb1
          have hkr : k0 < r.length := by
            by_contra hk
            rw [if_neg hk] at hr1
            exact hr1 rfl
          have hkh : k0 < h.length := by
            by_contra hk
            rw [if_neg hk] at ht1
            exact ht1 rfl
          refine ⟨k0, hkr, hkh, ?_⟩
          rw [hqe, if_pos hkr, if_pos hkh]
      · rw [if_neg hb1] at hq
        by_cases hb2 : (if k0 < r.length then r.getD k0 "" else "") ≠ "" ∧
            (if k0 < h.length then h.getD k0 "" else "") = ""
        · rw [if_pos hb2] at hq
          dsimp only at hq
          exact hacc q hq
        · rw [if_neg hb2] at hq
          by_cases hb3 : (if k0 < r.length then r.getD k0 "" else "") = "" ∧
              (if k0 < h.length then h.getD k0 "" else "") ≠ ""
          · rw [if_pos hb3] at hq
            dsimp only at hq
            exact hacc q hq
          · rw [if_neg hb3] at hq
            exact hacc q hq
  intro p hp
  refine key (List.range (max r.length h.length)) ([], [], []) ?_ p hp
  intro q hq
  simp at hq

/-- Indexing a drop-take slice reads the original list at the shifted
offset. -/
theorem slice_getD (l : List String) (i1 n k : Nat)
    (hk : k < ((l.drop i1).take n).length) :
    ((l.drop i1).take n).getD k "" = l.getD (i1 + k) "" ∧
    i1 + k < l.length ∧ k < n := by
  rw [List.length_take, List.length_drop] at hk
  have hkn : k < n := by omega
  have hkl : i1 + k < l.length := by omega
  refine ⟨?_, hkl, hkn⟩
  rw [List.getD_eq_get?, List.getD_eq_get?, List.get?_take hkn, List.get?_drop]

/-- The classifier fold keeps every accumulated substitution pair distinct
as long as every replace opcode's window has no matching cell. -/
theorem subs_differ_fold (refs hyps : List String) :
    ∀ (ops : List Opcode) (acc : AlignResult),
      (∀ p ∈ acc.substitutions, p.1 ≠ p.2) →
      (∀ op ∈ ops, op.1 = Tag.replace →
        ∀ i j, op.2.1 ≤ i → i < op.2.2.1 → op.2.2.2.1 ≤ j → j < op.2.2.2.2 →
          cellEq refs hyps i j = false) →
      ∀ p ∈ (ops.foldl (classifyStep refs hyps) acc).substitutions, p.1 ≠ p.2 := by
  intro ops
  induction ops with
  | nil =>
    intro acc hacc _ p hp
    rw [List.foldl_nil] at hp
    exact hacc p hp
  | cons op ops ih =>
    intro acc hacc hops p hp
    rw [List.foldl_cons] at hp
    refine ih (classifyStep refs hyps acc op) ?_
      (fun o ho => hops o (List.mem_cons_of_mem _ ho)) p hp
    obtain ⟨tag, i1, i2, j1, j2⟩ := op
    cases tag with
    | equal =>
      intro q hq
      simp only [classifyStep] at hq
      exact hacc q hq
    | delete =>
      intro q hq
      simp only [classifyStep] at hq
      exact hacc q hq
    | insert =>
      intro q hq
      simp only [classifyStep] at hq
      exact hacc q hq
    | replace =>
      intro q hq
      simp only [classifyStep] at hq
      rcases List.mem_append.mp hq with h | h
      · exact hacc q h
      · obtain ⟨k, hk1, hk2, hqe⟩ := replaceWalk_subs_mem _ _ q h
        obtain ⟨er, hr2, hr3⟩ := slice_getD refs i1 (i2 - i1) k hk1
        obtain ⟨eh, hh2, hh3⟩ := slice_getD hyps j1 (j2 - j1) k hk2
        have hcell := hops (Tag.replace, i1, i2, j1, j2) (List.mem_cons_self _ _) rfl
          (i1 + k) (j1 + k) (by omega : i1 ≤ i1 + k) (by omega : i1 + k < i2)
          (by omega : j1 ≤ j1 + k) (by omega : j1 + k < j2)
        cases hx : refs.get? (i1 + k) with
        | none =>
          exfalso
          rw [List.get?_eq_none] at hx
          omega
        | some x =>
          cases hy : hyps.get? (j1 + k) with
          | none =>
            exfalso
            rw [List.get?_eq_none] at hy
            omega
          | some y =>
            have hne := cellEq_false_ne refs hyps hx hy hcell
            rw [hqe]
            dsimp only
            rw [er, eh, List.getD_eq_get?, List.getD_eq_get?, hx, hy]
            simpa using hne

/-- One-step unfolding of specOpcodesAux at successor fuel. -/
theorem specOpcodesAux_succ (a b : List α) (f alo ahi blo bhi : Nat) :
    specOpcodesAux a b (f + 1) alo ahi blo bhi =
      if (specLongestMatch a b alo ahi blo bhi).2.2 = 0 then
        if alo < ahi ∧ blo < bhi then [(Tag.replace, alo, ahi, blo, bhi)]
        else if alo < ahi then [(Tag.delete, alo, ahi, blo, bhi)]
        else if blo < bhi then [(Tag.insert, alo, ahi, blo, bhi)]
        else []
      else
        specOpcodesAux a b f alo (specLongestMatch a b alo ahi blo bhi).1 blo
            (specLongestMatch a b alo ahi blo bhi).2.1 ++
          (Tag.equal, (specLongestMatch a b alo ahi blo bhi).1,
            (specLongestMatch a b alo ahi blo bhi).1 +
              (specLongestMatch a b alo ahi blo bhi).2.2,
            (specLongestMatch a b alo ahi blo bhi).2.1,
            (specLongestMatch a b alo ahi blo bhi).2.1 +
              (specLongestMatch a b alo ahi blo bhi).2.2) ::
            specOpcodesAux a b f
              ((specLongestMatch a b alo ahi blo bhi).1 +
                (specLongestMatch a b alo ahi blo bhi).2.2) ahi
              ((specLongestMatch a b alo ahi blo bhi).2.1 +
                (specLongestMatch a b alo ahi blo bhi).2.2) bhi := rfl

end Exactness

/-- C2: for token sequences whose hypothesis side has fewer than 200
tokens, the aligner used by align_sequences (difflib's get_opcodes with
autojunk inactive) computes exactly the recursive longest-matching-block
partition of the spec, tie-break included: the longest common run wins,
and among equal-length maximal runs the one with the smallest reference
start index wins, then the smallest hypothesis start index (specOpcodes,
modelled from the spec, section 4.2). At 200 or more hypothesis tokens the
autojunk heuristic can purge popular tokens and the partitions deviate. -/
theorem c2_tie_break_exact (reference_words transcript_words : List String)
    (hlen : transcript_words.length < 200) :
    get_opcodes reference_words transcript_words =
      specOpcodes reference_words transcript_words :=
  get_opcodes_eq_specAux reference_words transcript_words
    (isPopular_short transcript_words hlen)

/-- Witness for C2 at a concrete input. -/
theorem c2_tie_break_exact_witness :
    (["the", "dog", "sat"] : List String).length < 200 ∧
    get_opcodes ["the", "cat", "sat"] ["the", "dog", "sat"] =
      specOpcodes ["the", "cat", "sat"] ["the", "dog", "sat"] :=
  ⟨by decide, c2_tie_break_exact ["the", "cat", "sat"] ["the", "dog", "sat"] (by decide)⟩

set_option maxRecDepth 40000 in
set_option maxHeartbeats 2000000 in
/-- Counterexample bounding C2: with 200 hypothesis tokens the token "x"
(four occurrences, more than 200/100+1) is purged by autojunk, difflib
finds no match at all, but the spec partition contains the equal opcode of
a real common run; the two partitions differ. -/
theorem c2_counterexample :
    get_opcodes bigRef bigHyp ≠ specOpcodes bigRef bigHyp := by
  intro heq
  have e1 : bigRef.length = 4 := by decide
  have e2 : bigHyp.length = 200 := by decide
  have hcell : cellEq bigRef bigHyp 0 2 = true := by decide
  have hrun : matchRun bigRef bigHyp 0 2 1 := matchRun_one bigRef bigHyp 0 2 hcell
  set m := specLongestMatch bigRef bigHyp 0 4 0 200 with hmdef
  have hmax := (specLongestMatch_isBest bigRef bigHyp 0 4 0 200).1 0 2 1
    (by omega) (by omega) (by omega) (by omega) hrun
  rw [← hmdef] at hmax
  have hm0 : ¬ m.2.2 = 0 := by omega
  have hmem : (Tag.equal, m.1, m.1 + m.2.2, m.2.1, m.2.1 + m.2.2) ∈
      specOpcodes bigRef bigHyp := by
    have hspec : specOpcodes bigRef bigHyp =
        specOpcodesAux bigRef bigHyp (203 + 1) 0 4 0 200 := by
      unfold specOpcodes
      rw [e1, e2]
    rw [hspec, specOpcodesAux_succ, ← hmdef, if_neg hm0]
    exact List.mem_append.mpr (Or.inr (List.mem_cons_self _ _))
  rw [← heq] at hmem
  have hget : get_opcodes bigRef bigHyp = [(Tag.replace, 0, 4, 0, 200)] := by decide
  rw [hget] at hmem
  have hsing := List.mem_singleton.mp hmem
  have htag := congrArg (fun op : Opcode => op.1) hsing
  exact Tag.noConfusion htag

/-- C10: for token sequences whose hypothesis side has fewer than 200
tokens, every substitution pair returned by align_sequences has distinct
components: replace windows of the partition contain no matching cell, so
the positional pairing never pairs a token with an identical copy. With
200 or more hypothesis tokens autojunk can leave matching tokens inside a
replace window and the claim fails. -/
theorem c10_substitutions_differ (reference_words transcript_words : List String)
    (hlen : transcript_words.length < 200) :
    ∀ p ∈ (align_sequences reference_words transcript_words).substitutions,
      p.1 ≠ p.2 := by
  unfold align_sequences
  rw [get_opcodes_eq_specAux reference_words transcript_words
    (isPopular_short transcript_words hlen)]
  refine subs_differ_fold reference_words transcript_words _ _ ?_ ?_
  · intro p hp
    simp at hp
  · intro op hop htag i j h1 h2 h3 h4
    exact specOpcodesAux_replace_no_common reference_words transcript_words
      (reference_words.length + transcript_words.length) 0 reference_words.length
      0 transcript_words.length (by omega) (by omega) op hop htag i j h1 h2 h3 h4

/-- Witness for C10 at a concrete input. -/
theorem c10_substitutions_differ_witness :
    (["b", "x"] : List String).length < 200 ∧
    ∀ p ∈ (align_sequences ["a", "x"] ["b", "x"]).substitutions, p.1 ≠ p.2 :=
  ⟨by decide, c10_substitutions_differ ["a", "x"] ["b", "x"] (by decide)⟩

set_option maxRecDepth 40000 in
set_option maxHeartbeats 2000000 in
/-- Counterexample bounding C10: with 200 hypothesis tokens the purged
popular token "x" stays inside a replace window on both sides at the same
offset, and align_sequences emits the substitution pair ("x", "x") whose
components are identical. -/
theorem c10_counterexample :
    ("x", "x") ∈ (align_sequences bigRef bigHyp).substitutions ∧
    ("x", "x").1 = ("x", "x").2 := by
  constructor
  · decide
  · rfl

end ORF
